import Mathlib

/-!
Verification of the backup-deduplication program (`main.py`).

The filesystem is modelled shallowly: a backup generation is a `DirTree`
(files with stat metadata, plus named subdirectories), the working root is a
list of top-level entries (`RootEntry`, a directory entry or a plain file such
as a run-log artifact), and a run of `deduplicate` is a pure function from the
root to a trace of filesystem events, the freed-byte total, and the resulting
root contents.  File sizes are natural numbers, ctimes are integers, and the
byte pretty-printer works over `ℚ` (Python's exact division of the freed-byte
integer total).  Paths are lists of name components, relative to the working
root (a path under a generation is the generation name consed onto the
generation-relative path).
-/

/-- stat metadata of one file: `st_size` and `st_ctime`. -/
structure FileMeta where
  st_size : Nat
  st_ctime : Int
deriving DecidableEq, Repr

/-- A directory tree: the files directly in the directory (name and stat
metadata) and the named subdirectories. -/
inductive DirTree where
  | mk (files : List (String × FileMeta)) (subs : List (String × DirTree))

/-- The files directly in a directory. -/
def DirTree.files : DirTree → List (String × FileMeta)
  | .mk fs _ => fs

/-- The named subdirectories of a directory. -/
def DirTree.subs : DirTree → List (String × DirTree)
  | .mk _ ss => ss

/-- Python string comparison (`<`/`<=` used by `sorted`), lexicographic on
code points: `charsLe a b` is true iff `a <= b`. -/
def charsLe : List Char → List Char → Bool
  | [], _ => true
  | _ :: _, [] => false
  | a :: as, b :: bs => if a < b then true else if b < a then false else charsLe as bs

/-- `a <= b` for strings, as Python compares them (code-point lexicographic). -/
def nameLe (a b : String) : Bool := charsLe a.data b.data

/-- Python `str.endswith`. -/
def strEndsWith (s suffix : String) : Bool :=
  List.isPrefixOf suffix.data.reverse s.data.reverse

/-- Python `str.lower` (adequate for the ASCII extension patterns involved). -/
def lowerStr (s : String) : String := String.mk (s.data.map Char.toLower)

/-- The extension allow-list `DEFAULT_EXTENSIONS` from `main.py`. -/
def DEFAULT_EXTENSIONS : List String :=
  ["jpg", "jpeg", "png", "tif", "bmp", "webp", "gif", "mp4", "mov", "txt", "md", "pdf",
   "docx", "doc", "xlsx", "ods", "odt", "zip", "pptx", "apk", "enc", "exe", "mp3", "wav",
   "opus", "m4a", "ipynb", "json", "csv", "tsv", "dic", "amr"]

/-- Does a file name match the case-insensitive glob pattern `**/*.<ex>`? -/
def matchesExt (name : String) (ex : String) : Bool :=
  strEndsWith (lowerStr name) ("." ++ ex)

/-- Find a file by name in a directory listing (`(dir / name).stat()`). -/
def findFile (n : String) (files : List (String × FileMeta)) : Option FileMeta :=
  (files.find? (fun q => q.1 == n)).map (fun q => q.2)

mutual

/-- Resolve a generation-relative path to a file's stat metadata
(`alt_file.exists()` / `alt_file.stat()`). -/
def DirTree.lookupFile : DirTree → List String → Option FileMeta
  | .mk files subs, p =>
    match p with
    | [] => none
    | n :: rest =>
      match rest with
      | [] => findFile n files
      | _ :: _ => lookupInSubs n rest subs

/-- Resolve the first subdirectory named `n` and continue the lookup there. -/
def lookupInSubs (n : String) (rest : List String) : List (String × DirTree) → Option FileMeta
  | [] => none
  | (m, t) :: others => if m == n then t.lookupFile rest else lookupInSubs n rest others

end

mutual

/-- `file.unlink()`: remove the file at a generation-relative path. -/
def DirTree.deleteFile : DirTree → List String → DirTree
  | .mk files subs, p =>
    match p with
    | [] => .mk files subs
    | n :: rest =>
      match rest with
      | [] => .mk (files.filter (fun q => !(q.1 == n))) subs
      | _ :: _ => .mk files (deleteInSubs n rest subs)

/-- Descend into the first subdirectory named `n` to delete the file there. -/
def deleteInSubs (n : String) (rest : List String) : List (String × DirTree) → List (String × DirTree)
  | [] => []
  | (m, t) :: others =>
    if m == n then (m, t.deleteFile rest) :: others else (m, t) :: deleteInSubs n rest others

end

mutual

/-- All files in a tree, as generation-relative paths with their metadata, in
traversal order (a directory's own files first, then its subdirectories). -/
def DirTree.allFiles : DirTree → List (List String × FileMeta)
  | .mk files subs => files.map (fun q => ([q.1], q.2)) ++ subsFiles subs

/-- Files found under a list of named subdirectories. -/
def subsFiles : List (String × DirTree) → List (List String × FileMeta)
  | [] => []
  | (n, t) :: rest => (DirTree.allFiles t).map (fun q => (n :: q.1, q.2)) ++ subsFiles rest

end

mutual

/-- Does the tree contain no file anywhere? -/
def DirTree.fileFree : DirTree → Bool
  | .mk files subs => files.isEmpty && subsFileFree subs

/-- Are all the trees in a subdirectory list file-free? -/
def subsFileFree : List (String × DirTree) → Bool
  | [] => true
  | (_, t) :: rest => t.fileFree && subsFileFree rest

end

mutual

/-- Well-formedness of a filesystem tree: in every directory the entry names
(files and subdirectories together) are distinct, as they are on a real
filesystem. -/
def DirTree.wfB : DirTree → Bool
  | .mk files subs =>
    decide ((files.map (fun q => q.1) ++ subs.map (fun q => q.1)).Nodup) && subsWfB subs

/-- Well-formedness of every tree in a subdirectory list. -/
def subsWfB : List (String × DirTree) → Bool
  | [] => true
  | (_, t) :: rest => t.wfB && subsWfB rest

end

mutual

/-- Resolve a generation-relative path to the subtree rooted there. -/
def DirTree.subtreeAt : DirTree → List String → Option DirTree
  | .mk files subs, p =>
    match p with
    | [] => some (.mk files subs)
    | n :: rest => subtreeAtSubs n rest subs

/-- Resolve the first subdirectory named `n` and continue there. -/
def subtreeAtSubs (n : String) (rest : List String) : List (String × DirTree) → Option DirTree
  | [] => none
  | (m, t) :: others => if m == n then t.subtreeAt rest else subtreeAtSubs n rest others

end

mutual

/-- `root.walk(top_down=False)`: the bottom-up traversal frames, each frame
being the directory's root-relative path, its subdirectory names and its file
names.  Subdirectory frames come before the parent's own frame. -/
def DirTree.walkPost (path : List String) : DirTree → List (List String × List String × List String)
  | .mk files subs =>
    walkPostSubs path subs ++ [(path, subs.map (fun q => q.1), files.map (fun q => q.1))]

/-- Frames contributed by a list of named subdirectories. -/
def walkPostSubs (path : List String) : List (String × DirTree) → List (List String × List String × List String)
  | [] => []
  | (n, t) :: rest => t.walkPost (path ++ [n]) ++ walkPostSubs path rest

end

/-- One iteration of the `delete_empty_folders` loop: remove the frame's
directory when it has no files and every subdirectory was already removed
this pass (the `deleted` set check in `main.py`). -/
def reclaimStep (acc : List (List String)) (fr : List String × List String × List String) :
    List (List String) :=
  if fr.2.2.isEmpty && fr.2.1.all (fun s => decide ((fr.1 ++ [s]) ∈ acc)) then acc ++ [fr.1]
  else acc

/-- `delete_empty_folders(root)`: the directories removed (root-relative, in
removal order) by the single bottom-up pass. -/
def delete_empty_folders (t : DirTree) : List (List String) :=
  (t.walkPost []).foldl reclaimStep []

mutual

/-- The tree left on disk after removing the directories in `removed`
(paths interpreted relative to `path`). -/
def DirTree.prune (removed : List (List String)) (path : List String) : DirTree → DirTree
  | .mk files subs => .mk files (pruneSubs removed path subs)

/-- Prune a subdirectory list, dropping removed directories. -/
def pruneSubs (removed : List (List String)) (path : List String) :
    List (String × DirTree) → List (String × DirTree)
  | [] => []
  | (n, t) :: rest =>
    if (path ++ [n]) ∈ removed then pruneSubs removed path rest
    else (n, t.prune removed (path ++ [n])) :: pruneSubs removed path rest

end

/-- The candidate enumeration: for each extension pattern in order, the files
of the master generation whose name matches it, in traversal order
(`itertools.chain.from_iterable(master_backup.glob("**/*." + ex, ...))`,
made relative to the master root). -/
def candidates (t : DirTree) : List (List String × FileMeta) :=
  (DEFAULT_EXTENSIONS.map (fun ex => t.allFiles.filter (fun q => matchesExt (q.1.getLastD "") ex))).flatten

/-- A top-level entry of the working root: its name, and `some` tree when the
entry is a directory (`none` for a plain file such as a log artifact). -/
structure RootEntry where
  name : String
  content : Option DirTree

/-- Stable insertion into a name-descending list (used to model Python's
stable `sorted(..., key=lambda f: f.name, reverse=True)`). -/
def insertDesc (a : RootEntry) : List RootEntry → List RootEntry
  | [] => [a]
  | b :: l => if nameLe b.name a.name then a :: b :: l else b :: insertDesc a l

/-- Python's `sorted(folder.iterdir(), key=lambda f: f.name, reverse=True)`:
a stable descending sort by name. -/
def sortDesc : List RootEntry → List RootEntry
  | [] => []
  | a :: l => insertDesc a (sortDesc l)

/-- The filter of the generation enumerator: keep entries whose name does not
end with `.log.csv`. -/
def keepEntry (e : RootEntry) : Bool := !(strEndsWith e.name ".log.csv")

/-- The `children` list of `deduplicate`: top-level entries sorted descending
by name, excluding run-log artifacts. -/
def genChildren (root : List RootEntry) : List RootEntry :=
  (sortDesc root).filter keepEntry

/-- The `assert all(c.is_dir() ...)` precondition: `some` of the name/tree
pairs when every child is a directory, `none` otherwise. -/
def checkDirs : List RootEntry → Option (List (String × DirTree))
  | [] => some []
  | e :: rest =>
    match e.content with
    | none => none
    | some t => (checkDirs rest).map (fun l => (e.name, t) :: l)

/-- One row of the reconstruction log: paths of the duplicate and of the
master file (relative to the working root) and their ctimes. -/
structure LogRow where
  alt_file : List String
  master_file : List String
  alt_ctime : Int
  master_ctime : Int
deriving DecidableEq, Repr

/-- Observable filesystem/log actions of a run, in order: an existence probe
of a candidate in an older generation, a reconstruction-log row write, the
`delete()` call (which only prints in dry-run mode), an actual `unlink`, and
a directory removal by the reclamation pass. -/
inductive Event where
  | probe (p : List String)
  | logRow (r : LogRow)
  | deleteCall (p : List String)
  | unlink (p : List String)
  | rmdir (p : List String)
deriving DecidableEq, Repr

/-- The inner loop of `deduplicate` for one candidate `f` (master size `S`,
master ctime `T`): walk the older generations newest-first; on absence or
size mismatch either stop (`assume_continuity`) or skip; on a size match
write the log row, call `delete` (unlinking unless dry-run) and add the size
to the freed total.  Returns the events, the bytes freed and the updated
older-generation list. -/
def scanFile (ac dry : Bool) (mname : String) (f : List String) (S : Nat) (T : Int) :
    List (String × DirTree) → List Event × Nat × List (String × DirTree)
  | [] => ([], 0, [])
  | (gname, t) :: rest =>
    match t.lookupFile f with
    | none =>
      if ac then ([Event.probe (gname :: f)], 0, (gname, t) :: rest)
      else
        let r := scanFile ac dry mname f S T rest
        (Event.probe (gname :: f) :: r.1, r.2.1, (gname, t) :: r.2.2)
    | some m =>
      if m.st_size ≠ S then
        if ac then ([Event.probe (gname :: f)], 0, (gname, t) :: rest)
        else
          let r := scanFile ac dry mname f S T rest
          (Event.probe (gname :: f) :: r.1, r.2.1, (gname, t) :: r.2.2)
      else
        let r := scanFile ac dry mname f S T rest
        (Event.probe (gname :: f) ::
            Event.logRow ⟨gname :: f, mname :: f, m.st_ctime, T⟩ ::
            Event.deleteCall (gname :: f) ::
            ((if dry then [] else [Event.unlink (gname :: f)]) ++ r.1),
         m.st_size + r.2.1,
         (gname, if dry then t else t.deleteFile f) :: r.2.2)

/-- The outer loop of `deduplicate`: scan every candidate in order, threading
the (possibly mutated) older-generation trees. -/
def scanAll (ac dry : Bool) (mname : String) :
    List (List String × FileMeta) → List (String × DirTree) → List Event × Nat × List (String × DirTree)
  | [], gens => ([], 0, gens)
  | (f, meta) :: fs, gens =>
    let r1 := scanFile ac dry mname f meta.st_size meta.st_ctime gens
    let r2 := scanAll ac dry mname fs r1.2.2
    (r1.1 ++ r2.1, r1.2.1 + r2.2.1, r2.2.2)

/-- The documented error conditions: the `assert all(c.is_dir() ...)` failure
(a non-directory top-level entry) and the `children[0]` index error on an
empty generation list. -/
inductive DedupError where
  | configurationError
  | indexError
deriving DecidableEq, Repr

/-- The name of the per-run reconstruction log file. -/
def logFileName (now : String) (dry : Bool) : String :=
  "deduplication-" ++ now ++ (if dry then "-dry" else "") ++ ".log.csv"

/-- The outcome of a successful `deduplicate` run: the event trace, the freed
byte total, the older-generation trees right after the scan (before the
reclamation pass), and the contents of the working root afterwards. -/
structure RunResult where
  trace : List Event
  bytes_freed : Nat
  postOlds : List (String × DirTree)
  entries : List RootEntry

/-- `deduplicate(folder, dry_run, assume_continuity)` from `main.py`:
enumerate the generations (descending by name, excluding `.log.csv`
artifacts, failing on a non-directory entry), scan every candidate of the
master (first) generation across the older generations, and, when not in
dry-run mode, run the empty-directory reclamation over each older
generation. -/
def deduplicate (now : String) (root : List RootEntry) (dry_run assume_continuity : Bool) :
    Except DedupError RunResult :=
  match checkDirs (genChildren root) with
  | none => .error .configurationError
  | some gens =>
    match gens with
    | [] => .error .indexError
    | (mname, mtree) :: olds =>
      let scan := scanAll assume_continuity dry_run mname (candidates mtree) olds
      if dry_run then
        .ok ⟨scan.1, scan.2.1, scan.2.2, root ++ [⟨logFileName now true, none⟩]⟩
      else
        let recl := scan.2.2.map (fun g => (g.1, g.2, delete_empty_folders g.2))
        let rmEvents := (recl.map (fun g => g.2.2.map (fun d => Event.rmdir (g.1 :: d)))).flatten
        let survivors := recl.filterMap (fun g =>
          if ([] : List String) ∈ g.2.2 then none
          else some (⟨g.1, some (g.2.1.prune g.2.2 [])⟩ : RootEntry))
        .ok ⟨scan.1 ++ rmEvents, scan.2.1, scan.2.2,
             (root.filter (fun e => !(keepEntry e))) ++
               (⟨mname, some mtree⟩ : RootEntry) :: survivors ++ [⟨logFileName now false, none⟩]⟩

/-- The reconstruction-log rows recorded in a trace, in order. -/
def rowsOf (tr : List Event) : List LogRow :=
  tr.filterMap (fun e => match e with | .logRow r => some r | _ => none)

/-- The existence probes recorded in a trace, in order. -/
def probesOf (tr : List Event) : List (List String) :=
  tr.filterMap (fun e => match e with | .probe p => some p | _ => none)

/-- The log-before-delete checker: scanning the trace left to right with the
set of rows written so far, every `unlink` must be preceded by a log row
whose `alt_file` is the unlinked path. -/
def okTraceB (seen : List LogRow) : List Event → Bool
  | [] => true
  | .logRow r :: rest => okTraceB (r :: seen) rest
  | .unlink p :: rest => seen.any (fun r => r.alt_file == p) && okTraceB seen rest
  | .probe _ :: rest => okTraceB seen rest
  | .deleteCall _ :: rest => okTraceB seen rest
  | .rmdir _ :: rest => okTraceB seen rest

/-- The unit labels of `format_bytes` (`power_labels` in `main.py`); the
Python dict raises `KeyError` past index 4, modelled by out-of-range
list access. -/
def power_labels : List String := ["bytes", "kb", "mb", "gb", "tb"]

/-- The `while size > power: size /= power; n += 1` loop of `format_bytes`,
over exact rationals. -/
def format_bytes_go (size : ℚ) (n : Nat) : ℚ × Nat :=
  if 1024 < size then format_bytes_go (size / 1024) (n + 1) else (size, n)
termination_by (⌈size⌉).toNat
decreasing_by
  have h2 : size / 1024 ≤ size - 1023 := by nlinarith
  have h3 : (⌈size / 1024⌉ : ℤ) ≤ ⌈size⌉ - 1023 := by
    rw [Int.ceil_le]
    calc (size / 1024 : ℚ) ≤ size - 1023 := h2
    _ ≤ (⌈size⌉ : ℚ) - 1023 := by
          have := Int.le_ceil size
          linarith
    _ = ((⌈size⌉ - 1023 : ℤ) : ℚ) := by push_cast; ring
  have h4 : (0 : ℤ) < ⌈size⌉ := by
    have : (0 : ℚ) < size := by linarith
    exact_mod_cast Int.ceil_pos.mpr this
  omega

/-- `format_bytes(size)` on the freed-byte total: the repeatedly divided
value and its unit label (`none` models the `KeyError` past `tb`). -/
def format_bytes (size : Nat) : Option (ℚ × String) :=
  let r := format_bytes_go (size : ℚ) 0
  (power_labels[r.2]?).map (fun lab => (r.1, lab))

/-- The sorting relation of the generation enumerator: descending by name. -/
abbrev DescBy (l : List RootEntry) : Prop :=
  l.Pairwise (fun a b => nameLe b.name a.name = true)

/-- The event trace of a run outcome (empty for a failed run). -/
def runTrace : Except DedupError RunResult → List Event
  | .ok r => r.trace
  | .error _ => []

/-- The freed-byte total of a run outcome (zero for a failed run). -/
def runBytes : Except DedupError RunResult → Nat
  | .ok r => r.bytes_freed
  | .error _ => 0

/-- The reconstruction-log rows of a run outcome (empty for a failed run). -/
def runRows : Except DedupError RunResult → List LogRow
  | .ok r => rowsOf r.trace
  | .error _ => []

/-- The resulting working-root contents of a run outcome. -/
def runEntries : Except DedupError RunResult → List RootEntry
  | .ok r => r.entries
  | .error _ => []

/-- Pointwise agreement of two older-generation lists on the lookups of a
set of candidate paths (same names, same lookup results for every path
satisfying `P`). -/
def LookEq (P : List String → Prop) (gens₁ gens₂ : List (String × DirTree)) : Prop :=
  List.Forall₂ (fun a b => a.1 = b.1 ∧ ∀ f, P f → a.2.lookupFile f = b.2.lookupFile f)
    gens₁ gens₂

mutual

/-- The directories a single reclamation pass removes, characterised
recursively: below every subdirectory first, then the directory itself when
it is file-free.  Used to reason about the fold in `delete_empty_folders`. -/
def removedDirs (path : List String) : DirTree → List (List String)
  | .mk files subs =>
    removedSubs path subs ++ (if (DirTree.mk files subs).fileFree then [path] else [])

/-- The directories removed below a list of named subdirectories. -/
def removedSubs (path : List String) : List (String × DirTree) → List (List String)
  | [] => []
  | (n, t) :: rest => removedDirs (path ++ [n]) t ++ removedSubs path rest

end

/-- `y` lies strictly below the directory `x`. -/
def StrictUnder (x y : List String) : Prop := x <+: y ∧ y ≠ x

/-- The post-scan older-generation trees of a run outcome. -/
def runPostOlds : Except DedupError RunResult → List (String × DirTree)
  | .ok r => r.postOlds
  | .error _ => []

/-- A working root on which repeated real runs are not idempotent: the
master holds `a.jpg` (7 bytes) and `b.jpg` (1000 bytes); generation `2023`
holds only `b.jpg` (duplicate), generation `2022` holds only `a.jpg`
(duplicate, shielded by the continuity break at `2023` in the first run). -/
def exRootA : List RootEntry :=
  [⟨"2024", some (DirTree.mk [("a.jpg", ⟨7, 10⟩), ("b.jpg", ⟨1000, 11⟩)] [])⟩,
   ⟨"2023", some (DirTree.mk [("b.jpg", ⟨1000, 5⟩)] [])⟩,
   ⟨"2022", some (DirTree.mk [("a.jpg", ⟨7, 1⟩)] [])⟩]

/-- The candidate `f` (master size `S`) finds no duplicate in generation
`g`: the file is absent there or has a different size. -/
def matchFail (S : Nat) (f : List String) (g : String × DirTree) : Prop :=
  g.2.lookupFile f = none ∨ ∃ m, g.2.lookupFile f = some m ∧ m.st_size ≠ S

/-- Every generation in the list fails the match for `f`. -/
def allFail (S : Nat) (f : List String) (gens : List (String × DirTree)) : Prop :=
  ∀ g ∈ gens, matchFail S f g

/-- The nearest (first) generation in the list fails the match for `f`. -/
def firstFail (S : Nat) (f : List String) : List (String × DirTree) → Prop
  | [] => True
  | g :: _ => matchFail S f g

/-- `t'` results from `t` by deleting files only: every lookup either still
answers as in `t` or answers nothing. -/
def Degrade (t t' : DirTree) : Prop :=
  ∀ f, t'.lookupFile f = t.lookupFile f ∨ t'.lookupFile f = none

/-- The older-generation lists `gens'` is `gens` after some file deletions:
names agree pointwise and every tree only degrades. -/
def GensDeg (gens gens' : List (String × DirTree)) : Prop :=
  List.Forall₂ (fun g g' => g.1 = g'.1 ∧ Degrade g.2 g'.2) gens gens'

/-! ### End of the program embedding; lemmas and claim theorems follow. -/

/-! ### Basic lemmas: the string order, sorting, `checkDirs`, trace projections -/

theorem charsLe_total : ∀ a b : List Char, charsLe a b = true ∨ charsLe b a = true
  | [], _ => Or.inl rfl
  | _ :: _, [] => Or.inr rfl
  | a :: as, b :: bs => by
    rcases lt_trichotomy a b with h | h | h
    · left; simp only [charsLe]; rw [if_pos h]
    · subst h
      rcases charsLe_total as bs with h2 | h2 <;>
        [left; right] <;>
        (simp only [charsLe]; rw [if_neg (lt_irrefl a), if_neg (lt_irrefl a)]; exact h2)
    · right; simp only [charsLe]; rw [if_pos h]

theorem charsLe_trans : ∀ a b c : List Char,
    charsLe a b = true → charsLe b c = true → charsLe a c = true
  | [], _, _ => by intro _ _; rfl
  | _ :: _, [], _ => by intro h _; simp [charsLe] at h
  | _ :: _, _ :: _, [] => by intro _ h; simp [charsLe] at h
  | a :: as, b :: bs, c :: cs => by
    intro h1 h2
    simp only [charsLe] at h1 h2 ⊢
    by_cases hab : a < b
    · by_cases hbc : b < c
      · rw [if_pos (lt_trans hab hbc)]
      · by_cases hcb : c < b
        · rw [if_neg hbc, if_pos hcb] at h2; exact absurd h2 (by simp)
        · have : b = c := le_antisymm (not_lt.mp hcb) (not_lt.mp hbc)
          subst this; rw [if_pos hab]
    · by_cases hba : b < a
      · rw [if_neg hab, if_pos hba] at h1; exact absurd h1 (by simp)
      · have : a = b := le_antisymm (not_lt.mp hba) (not_lt.mp hab)
        subst this
        rw [if_neg (lt_irrefl a), if_neg (lt_irrefl a)] at h1
        by_cases hac : a < c
        · rw [if_pos hac]
        · rw [if_neg hac] at h2 ⊢
          by_cases hca : c < a
          · rw [if_pos hca] at h2; exact absurd h2 (by simp)
          · rw [if_neg hca] at h2 ⊢
            exact charsLe_trans as bs cs h1 h2

theorem charsLe_antisymm : ∀ a b : List Char,
    charsLe a b = true → charsLe b a = true → a = b
  | [], [] => by intro _ _; rfl
  | [], _ :: _ => by intro _ h; simp [charsLe] at h
  | _ :: _, [] => by intro h _; simp [charsLe] at h
  | a :: as, b :: bs => by
    intro h1 h2
    simp only [charsLe] at h1 h2
    by_cases hab : a < b
    · rw [if_neg (asymm hab), if_pos hab] at h2; exact absurd h2 (by simp)
    · by_cases hba : b < a
      · rw [if_neg (asymm hba), if_pos hba] at h1; exact absurd h1 (by simp)
      · have he : a = b := le_antisymm (not_lt.mp hba) (not_lt.mp hab)
        subst he
        rw [if_neg (lt_irrefl a), if_neg (lt_irrefl a)] at h1 h2
        rw [charsLe_antisymm as bs h1 h2]

theorem nameLe_total (a b : String) : nameLe a b = true ∨ nameLe b a = true :=
  charsLe_total a.data b.data

theorem nameLe_trans {a b c : String} (h1 : nameLe a b = true) (h2 : nameLe b c = true) :
    nameLe a c = true :=
  charsLe_trans a.data b.data c.data h1 h2

theorem nameLe_antisymm {a b : String} (h1 : nameLe a b = true) (h2 : nameLe b a = true) :
    a = b := by
  have h := charsLe_antisymm a.data b.data h1 h2
  cases a; cases b
  exact congrArg String.mk h

theorem strEndsWith_append (s t : String) : strEndsWith (s ++ t) t = true := by
  simp only [strEndsWith, List.isPrefixOf_iff_prefix, String.data_append]
  exact List.reverse_prefix.mpr (List.suffix_append _ _)

theorem insertDesc_perm (a : RootEntry) : ∀ l, (insertDesc a l).Perm (a :: l)
  | [] => List.Perm.refl _
  | b :: l => by
    simp only [insertDesc]
    by_cases h : nameLe b.name a.name = true
    · rw [if_pos h]
    · rw [if_neg h]
      exact ((insertDesc_perm a l).cons b).trans (List.Perm.swap a b l)

theorem sortDesc_perm : ∀ l, (sortDesc l).Perm l
  | [] => List.Perm.refl _
  | a :: l => (insertDesc_perm a (sortDesc l)).trans ((sortDesc_perm l).cons a)

theorem mem_insertDesc {x a : RootEntry} {l : List RootEntry} :
    x ∈ insertDesc a l ↔ x = a ∨ x ∈ l := by
  rw [(insertDesc_perm a l).mem_iff]; simp

theorem insertDesc_sorted (a : RootEntry) {l : List RootEntry} (h : DescBy l) :
    DescBy (insertDesc a l) := by
  induction l with
  | nil => simp [DescBy, insertDesc]
  | cons b l ih =>
    replace h := List.pairwise_cons.mp h
    simp only [insertDesc]
    by_cases hba : nameLe b.name a.name = true
    · rw [if_pos hba]
      refine List.Pairwise.cons ?_ (List.Pairwise.cons h.1 h.2)
      intro c hc
      rcases List.mem_cons.mp hc with rfl | hc
      · exact hba
      · exact nameLe_trans (h.1 c hc) hba
    · rw [if_neg hba]
      refine List.Pairwise.cons ?_ (ih h.2)
      intro c hc
      rcases mem_insertDesc.mp hc with rfl | hc
      · rcases nameLe_total b.name c.name with h1 | h1
        · exact absurd h1 hba
        · exact h1
      · exact h.1 c hc

theorem sortDesc_sorted : ∀ l, DescBy (sortDesc l)
  | [] => List.Pairwise.nil
  | a :: l => insertDesc_sorted a (sortDesc_sorted l)

theorem insertDesc_of_sorted {a : RootEntry} {l : List RootEntry}
    (h : DescBy (a :: l)) : insertDesc a l = a :: l := by
  cases l with
  | nil => rfl
  | cons b l =>
    replace h := List.pairwise_cons.mp h
    simp only [insertDesc]
    rw [if_pos (h.1 b (List.mem_cons_self b l))]

theorem sortDesc_of_sorted : ∀ {l : List RootEntry}, DescBy l → sortDesc l = l
  | [], _ => rfl
  | a :: l, h => by
    have h2 : DescBy l := (List.pairwise_cons.mp h).2
    simp only [sortDesc, sortDesc_of_sorted h2]
    exact insertDesc_of_sorted h

theorem checkDirs_some_eq : ∀ {l : List RootEntry} {gens : List (String × DirTree)},
    checkDirs l = some gens → l = gens.map (fun g => (⟨g.1, some g.2⟩ : RootEntry))
  | [], gens, h => by
    simp only [checkDirs, Option.some_inj] at h
    subst h; rfl
  | e :: rest, gens, h => by
    cases hc : e.content with
    | none => simp [checkDirs, hc] at h
    | some t =>
      cases hr : checkDirs rest with
      | none => simp [checkDirs, hc, hr] at h
      | some l' =>
        have h' : (e.name, t) :: l' = gens := by
          simpa [checkDirs, hc, hr] using h
        subst h'
        simp only [List.map_cons]
        refine congrArg₂ _ ?_ (checkDirs_some_eq hr)
        cases e with
        | mk nm ct => simp only at hc; rw [hc]

theorem checkDirs_of_map : ∀ gens : List (String × DirTree),
    checkDirs (gens.map (fun g => (⟨g.1, some g.2⟩ : RootEntry))) = some gens
  | [] => rfl
  | g :: gens => by simp [checkDirs, checkDirs_of_map gens]

theorem checkDirs_none_iff : ∀ {l : List RootEntry},
    checkDirs l = none ↔ ∃ e ∈ l, e.content = none
  | [] => by simp [checkDirs]
  | e :: rest => by
    constructor
    · intro h
      cases hc : e.content with
      | none => exact ⟨e, List.mem_cons_self e rest, hc⟩
      | some t =>
        cases hr : checkDirs rest with
        | none =>
          rcases (checkDirs_none_iff (l := rest)).mp hr with ⟨e', he', hc'⟩
          exact ⟨e', List.mem_cons_of_mem _ he', hc'⟩
        | some l' => simp [checkDirs, hc, hr] at h
    · rintro ⟨e', he', hc'⟩
      rcases List.mem_cons.mp he' with rfl | he'
      · simp [checkDirs, hc']
      · have hr : checkDirs rest = none := (checkDirs_none_iff (l := rest)).mpr ⟨e', he', hc'⟩
        cases hec : e.content <;> simp [checkDirs, hec, hr]

theorem probesOf_append (a b : List Event) : probesOf (a ++ b) = probesOf a ++ probesOf b :=
  List.filterMap_append a b _

theorem rowsOf_append (a b : List Event) : rowsOf (a ++ b) = rowsOf a ++ rowsOf b :=
  List.filterMap_append a b _

theorem probesOf_cons_probe (p : List String) (tr : List Event) :
    probesOf (Event.probe p :: tr) = p :: probesOf tr := rfl

theorem probesOf_cons_logRow (r : LogRow) (tr : List Event) :
    probesOf (Event.logRow r :: tr) = probesOf tr := rfl

theorem probesOf_cons_deleteCall (p : List String) (tr : List Event) :
    probesOf (Event.deleteCall p :: tr) = probesOf tr := rfl

theorem probesOf_cons_unlink (p : List String) (tr : List Event) :
    probesOf (Event.unlink p :: tr) = probesOf tr := rfl

theorem probesOf_cons_rmdir (p : List String) (tr : List Event) :
    probesOf (Event.rmdir p :: tr) = probesOf tr := rfl

theorem rowsOf_cons_probe (p : List String) (tr : List Event) :
    rowsOf (Event.probe p :: tr) = rowsOf tr := rfl

theorem rowsOf_cons_logRow (r : LogRow) (tr : List Event) :
    rowsOf (Event.logRow r :: tr) = r :: rowsOf tr := rfl

theorem rowsOf_cons_deleteCall (p : List String) (tr : List Event) :
    rowsOf (Event.deleteCall p :: tr) = rowsOf tr := rfl

theorem rowsOf_cons_unlink (p : List String) (tr : List Event) :
    rowsOf (Event.unlink p :: tr) = rowsOf tr := rfl

theorem rowsOf_cons_rmdir (p : List String) (tr : List Event) :
    rowsOf (Event.rmdir p :: tr) = rowsOf tr := rfl

/-- C2, size-match step equation of the scan. -/
theorem scanFile_match_eq (ac dry : Bool) (mname gname : String) (f : List String) (S : Nat)
    (T : Int) (t : DirTree) (m : FileMeta) (rest : List (String × DirTree))
    (hl : t.lookupFile f = some m) (hs : m.st_size = S) :
    scanFile ac dry mname f S T ((gname, t) :: rest) =
      (Event.probe (gname :: f) ::
         Event.logRow ⟨gname :: f, mname :: f, m.st_ctime, T⟩ ::
         Event.deleteCall (gname :: f) ::
         ((if dry then [] else [Event.unlink (gname :: f)]) ++
            (scanFile ac dry mname f S T rest).1),
       m.st_size + (scanFile ac dry mname f S T rest).2.1,
       (gname, if dry then t else t.deleteFile f) ::
         (scanFile ac dry mname f S T rest).2.2) := by
  simp only [scanFile, hl]
  rw [if_neg (by simp [hs])]

/-- C3 helper: with the continuity assumption disabled, every older
generation is probed for the candidate. -/
theorem scanFile_false_probes (dry : Bool) (mname : String) (f : List String) (S : Nat) (T : Int) :
    ∀ gens, probesOf (scanFile false dry mname f S T gens).1 = gens.map (fun g => g.1 :: f)
  | [] => rfl
  | (gname, t) :: rest => by
    have ih := scanFile_false_probes dry mname f S T rest
    cases hl : t.lookupFile f with
    | none => simp [scanFile, hl, probesOf_cons_probe, ih]
    | some m =>
      by_cases hs : m.st_size = S
      · rw [scanFile_match_eq false dry mname gname f S T t m rest hl hs]
        cases dry <;>
          simp [probesOf_cons_probe, probesOf_cons_logRow, probesOf_cons_deleteCall,
            probesOf_cons_unlink, probesOf_append, ih]
      · simp only [scanFile, hl]
        rw [if_pos (by simpa using hs)]
        simp [probesOf_cons_probe, ih]

/-- C2: when the scan for candidate `f` (master size `S`) reaches an older
generation `G` holding `f` at the same size, the run emits the
reconstruction-log row for `(G/f, master/f)`, issues the delete of `G/f`
(unlinking only when not in dry-run mode), adds the file's size to the
running freed-bytes total, and continues the scan over the still-older
generations; a size match never stops the scan. -/
theorem C2_size_match_logs_deletes_continues (ac dry : Bool) (mname gname : String)
    (f : List String) (S : Nat) (T : Int) (t : DirTree) (m : FileMeta)
    (rest : List (String × DirTree))
    (hl : t.lookupFile f = some m) (hs : m.st_size = S) :
    scanFile ac dry mname f S T ((gname, t) :: rest) =
      (Event.probe (gname :: f) ::
         Event.logRow ⟨gname :: f, mname :: f, m.st_ctime, T⟩ ::
         Event.deleteCall (gname :: f) ::
         ((if dry then [] else [Event.unlink (gname :: f)]) ++
            (scanFile ac dry mname f S T rest).1),
       m.st_size + (scanFile ac dry mname f S T rest).2.1,
       (gname, if dry then t else t.deleteFile f) ::
         (scanFile ac dry mname f S T rest).2.2) :=
  scanFile_match_eq ac dry mname gname f S T t m rest hl hs

/-- Witness for C2 at a concrete input: one older generation holding the
candidate at the master's size. -/
theorem C2_size_match_logs_deletes_continues_witness :
    (DirTree.mk [("a.jpg", ⟨5, 3⟩)] []).lookupFile ["a.jpg"] = some ⟨5, 3⟩ ∧
    scanFile true false "2024" ["a.jpg"] 5 7 [("2023", DirTree.mk [("a.jpg", ⟨5, 3⟩)] [])] =
      (Event.probe ["2023", "a.jpg"] ::
         Event.logRow ⟨["2023", "a.jpg"], ["2024", "a.jpg"], 3, 7⟩ ::
         Event.deleteCall ["2023", "a.jpg"] ::
         ((if false then [] else [Event.unlink ["2023", "a.jpg"]]) ++
            (scanFile true false "2024" ["a.jpg"] 5 7 []).1),
       5 + (scanFile true false "2024" ["a.jpg"] 5 7 []).2.1,
       ("2023", if false then DirTree.mk [("a.jpg", ⟨5, 3⟩)] []
          else (DirTree.mk [("a.jpg", ⟨5, 3⟩)] []).deleteFile ["a.jpg"]) ::
         (scanFile true false "2024" ["a.jpg"] 5 7 []).2.2) :=
  ⟨rfl, C2_size_match_logs_deletes_continues true false "2024" "2023" ["a.jpg"] 5 7
    (DirTree.mk [("a.jpg", ⟨5, 3⟩)] []) ⟨5, 3⟩ [] rfl rfl⟩

/-- C3: when the scan for candidate `f` hits an older generation where `f`
is absent or has a different size, then with `assume_continuity = true` the
scan stops entirely (nothing older is probed, nothing is logged or deleted,
nothing is mutated), while with `assume_continuity = false` only that
generation is skipped and the scan continues over the older generations;
moreover with `assume_continuity = false` every older generation is probed
for `f`. -/
theorem C3_continuity_stops_or_skips (dry : Bool) (mname gname : String) (f : List String)
    (S : Nat) (T : Int) (t : DirTree) (rest : List (String × DirTree))
    (hfail : t.lookupFile f = none ∨ ∃ m, t.lookupFile f = some m ∧ m.st_size ≠ S) :
    scanFile true dry mname f S T ((gname, t) :: rest) =
      ([Event.probe (gname :: f)], 0, (gname, t) :: rest)
    ∧ scanFile false dry mname f S T ((gname, t) :: rest) =
        (Event.probe (gname :: f) :: (scanFile false dry mname f S T rest).1,
         (scanFile false dry mname f S T rest).2.1,
         (gname, t) :: (scanFile false dry mname f S T rest).2.2)
    ∧ probesOf (scanFile false dry mname f S T ((gname, t) :: rest)).1 =
        ((gname, t) :: rest).map (fun g => g.1 :: f) := by
  refine ⟨?_, ?_, scanFile_false_probes dry mname f S T ((gname, t) :: rest)⟩ <;>
    · rcases hfail with hl | ⟨m, hl, hs⟩
      · simp [scanFile, hl]
      · simp [scanFile, hl, hs]

/-- Witness for C3 at a concrete input: the first older generation lacks the
candidate file. -/
theorem C3_continuity_stops_or_skips_witness :
    ((DirTree.mk [] []).lookupFile ["a.jpg"] = none ∨
      ∃ m, (DirTree.mk [] []).lookupFile ["a.jpg"] = some m ∧ m.st_size ≠ 5) ∧
    scanFile true true "2024" ["a.jpg"] 5 7 [("2023", DirTree.mk [] []), ("2022", DirTree.mk [] [])] =
      ([Event.probe ["2023", "a.jpg"]], 0,
       [("2023", DirTree.mk [] []), ("2022", DirTree.mk [] [])]) := by
  have h := C3_continuity_stops_or_skips true "2024" "2023" ["a.jpg"] 5 7
    (DirTree.mk [] []) [("2022", DirTree.mk [] [])] (Or.inl rfl)
  exact ⟨Or.inl rfl, h.1⟩

theorem okTraceB_mono : ∀ (tr : List Event) (s s' : List LogRow), s ⊆ s' →
    okTraceB s tr = true → okTraceB s' tr = true
  | [], _, _, _, _ => rfl
  | Event.probe _ :: tr, s, s', hs, h => okTraceB_mono tr s s' hs h
  | Event.deleteCall _ :: tr, s, s', hs, h => okTraceB_mono tr s s' hs h
  | Event.rmdir _ :: tr, s, s', hs, h => okTraceB_mono tr s s' hs h
  | Event.logRow r :: tr, s, s', hs, h =>
    okTraceB_mono tr (r :: s) (r :: s') (List.cons_subset_cons r hs) h
  | Event.unlink p :: tr, s, s', hs, h => by
    simp only [okTraceB, Bool.and_eq_true] at h ⊢
    refine ⟨?_, okTraceB_mono tr s s' hs h.2⟩
    rcases List.any_eq_true.mp h.1 with ⟨r, hr, hrp⟩
    exact List.any_eq_true.mpr ⟨r, hs hr, hrp⟩

theorem okTraceB_append : ∀ (tr₁ tr₂ : List Event) (s : List LogRow),
    okTraceB s tr₁ = true → okTraceB ((rowsOf tr₁).reverse ++ s) tr₂ = true →
    okTraceB s (tr₁ ++ tr₂) = true
  | [], _, _, _, h2 => h2
  | Event.probe p :: tr₁, tr₂, s, h1, h2 => okTraceB_append tr₁ tr₂ s h1 h2
  | Event.deleteCall p :: tr₁, tr₂, s, h1, h2 => okTraceB_append tr₁ tr₂ s h1 h2
  | Event.rmdir p :: tr₁, tr₂, s, h1, h2 => okTraceB_append tr₁ tr₂ s h1 h2
  | Event.logRow r :: tr₁, tr₂, s, h1, h2 => by
    show okTraceB (r :: s) (tr₁ ++ tr₂) = true
    refine okTraceB_append tr₁ tr₂ (r :: s) h1 ?_
    have he : (rowsOf (Event.logRow r :: tr₁)).reverse ++ s =
        (rowsOf tr₁).reverse ++ (r :: s) := by
      simp [rowsOf_cons_logRow]
    rw [he] at h2
    exact h2
  | Event.unlink p :: tr₁, tr₂, s, h1, h2 => by
    simp only [okTraceB, Bool.and_eq_true, List.cons_append] at h1 ⊢
    exact ⟨h1.1, okTraceB_append tr₁ tr₂ s h1.2 h2⟩

theorem okTraceB_of_rmdirs : ∀ (tr : List Event) (s : List LogRow),
    (∀ e ∈ tr, ∃ p, e = Event.rmdir p) → okTraceB s tr = true
  | [], _, _ => rfl
  | e :: tr, s, h => by
    rcases h e (List.mem_cons_self e tr) with ⟨p, rfl⟩
    exact okTraceB_of_rmdirs tr s (fun e' he' => h e' (List.mem_cons_of_mem _ he'))

theorem scanFile_okTrace (ac dry : Bool) (mname : String) (f : List String) (S : Nat) (T : Int) :
    ∀ (gens : List (String × DirTree)) (s : List LogRow),
      okTraceB s (scanFile ac dry mname f S T gens).1 = true
  | [], _ => rfl
  | (gname, t) :: rest, s => by
    have ih := scanFile_okTrace ac dry mname f S T rest
    cases hl : t.lookupFile f with
    | none =>
      cases ac <;> simp [scanFile, hl, okTraceB, ih]
    | some m =>
      by_cases hs : m.st_size = S
      · rw [scanFile_match_eq ac dry mname gname f S T t m rest hl hs]
        cases dry
        · show okTraceB _ (Event.probe _ :: Event.logRow _ :: Event.deleteCall _ ::
            (Event.unlink (gname :: f) :: (scanFile ac false mname f S T rest).1)) = true
          show okTraceB ((⟨gname :: f, mname :: f, m.st_ctime, T⟩ : LogRow) :: s)
            (Event.unlink (gname :: f) :: (scanFile ac false mname f S T rest).1) = true
          simp only [okTraceB, Bool.and_eq_true]
          refine ⟨List.any_eq_true.mpr ⟨_, List.mem_cons_self _ _, ?_⟩, ih _⟩
          simp
        · exact ih _
      · cases ac <;> simp [scanFile, hl, if_pos (by simpa using hs), okTraceB, ih]

theorem scanAll_okTrace (ac dry : Bool) (mname : String) :
    ∀ (cands : List (List String × FileMeta)) (gens : List (String × DirTree)) (s : List LogRow),
      okTraceB s (scanAll ac dry mname cands gens).1 = true
  | [], _, _ => rfl
  | (f, meta) :: fs, gens, s => by
    show okTraceB s ((scanFile ac dry mname f meta.st_size meta.st_ctime gens).1 ++
      (scanAll ac dry mname fs (scanFile ac dry mname f meta.st_size meta.st_ctime gens).2.2).1) = true
    exact okTraceB_append _ _ s (scanFile_okTrace ac dry mname f meta.st_size meta.st_ctime gens s)
      (scanAll_okTrace ac dry mname fs _ _)

/-- C4: in every run, each actual file deletion is preceded (strictly
earlier in the event trace) by the write of its reconstruction-log row: the
left-to-right log-before-delete checker accepts the trace of any successful
run. -/
theorem C4_log_before_delete (now : String) (root : List RootEntry) (dry ac : Bool)
    (r : RunResult) (h : deduplicate now root dry ac = .ok r) :
    okTraceB [] r.trace = true := by
  unfold deduplicate at h
  cases hcd : checkDirs (genChildren root) with
  | none => rw [hcd] at h; exact absurd h (by simp)
  | some gens =>
    rw [hcd] at h
    cases gens with
    | nil => exact absurd h (by simp)
    | cons g olds =>
      obtain ⟨mname, mtree⟩ := g
      cases dry
      · simp only [Bool.false_eq_true, if_neg, reduceIte, Except.ok.injEq] at h
        subst h
        refine okTraceB_append _ _ [] (scanAll_okTrace ac false mname _ _ _) ?_
        refine okTraceB_of_rmdirs _ _ ?_
        intro e he
        simp only [List.mem_flatten, List.mem_map] at he
        rcases he with ⟨l, ⟨gg, _, rfl⟩, he⟩
        rcases List.mem_map.mp he with ⟨d, _, rfl⟩
        exact ⟨gg.1 :: d, rfl⟩
      · simp only [reduceIte, Except.ok.injEq] at h
        subst h
        exact scanAll_okTrace ac true mname _ _ _

/-- Witness for C4: a concrete real-mode run whose trace passes the
log-before-delete checker. -/
theorem C4_log_before_delete_witness :
    okTraceB [] (runTrace (deduplicate "T"
      [⟨"2024", some (DirTree.mk [("a.jpg", ⟨5, 3⟩)] [])⟩,
       ⟨"2023", some (DirTree.mk [("a.jpg", ⟨5, 1⟩), ("b.txt", ⟨9, 1⟩)] [])⟩]
      false true)) = true := by
  cases h : deduplicate "T"
      [⟨"2024", some (DirTree.mk [("a.jpg", ⟨5, 3⟩)] [])⟩,
       ⟨"2023", some (DirTree.mk [("a.jpg", ⟨5, 1⟩), ("b.txt", ⟨9, 1⟩)] [])⟩]
      false true with
  | error e =>
    have hok : (deduplicate "T"
      [⟨"2024", some (DirTree.mk [("a.jpg", ⟨5, 3⟩)] [])⟩,
       ⟨"2023", some (DirTree.mk [("a.jpg", ⟨5, 1⟩), ("b.txt", ⟨9, 1⟩)] [])⟩]
      false true).isOk = true := by decide
    rw [h] at hok
    simp [Except.isOk, Except.toBool] at hok
  | ok r =>
    have := C4_log_before_delete "T" _ false true r h
    simpa [runTrace, h] using this

theorem fb_go_spec : ∀ (k : ℕ) (size : ℚ) (n : ℕ), 0 ≤ size → size ≤ 1024 ^ (k + 1) →
    (k = 0 ∨ (1024 : ℚ) ^ k < size) → format_bytes_go size n = (size / 1024 ^ k, n + k)
  | 0, size, n, _, hub, _ => by
    rw [format_bytes_go, if_neg (not_lt.mpr (by simpa using hub))]
    simp
  | k + 1, size, n, h0, hub, hlb => by
    rcases hlb with hlb | hlb
    · exact absurd hlb (by omega)
    have h1024 : (1024 : ℚ) < size := by
      refine lt_of_le_of_lt ?_ hlb
      calc (1024 : ℚ) = 1024 ^ 1 := (pow_one _).symm
        _ ≤ 1024 ^ (k + 1) := pow_le_pow_right₀ (by norm_num) (by omega)
    rw [format_bytes_go, if_pos h1024]
    have hub' : size / 1024 ≤ 1024 ^ (k + 1) := by
      rw [div_le_iff₀ (by norm_num : (0 : ℚ) < 1024)]
      calc size ≤ 1024 ^ (k + 1 + 1) := hub
        _ = 1024 ^ (k + 1) * 1024 := by rw [pow_succ]
    have hlb' : (1024 : ℚ) ^ k < size / 1024 := by
      rw [lt_div_iff₀ (by norm_num : (0 : ℚ) < 1024)]
      calc (1024 : ℚ) ^ k * 1024 = 1024 ^ (k + 1) := by rw [pow_succ]
        _ < size := hlb
    rw [fb_go_spec k (size / 1024) (n + 1) (by positivity) hub' (Or.inr hlb')]
    have he : size / 1024 / 1024 ^ k = size / 1024 ^ (k + 1) := by
      rw [div_div, ← pow_succ']
    rw [he, Nat.add_assoc, Nat.add_comm 1 k]

/-- C9: for every freed-byte total expressible in the five 1024-based units
(any total up to `1024 ^ 5`), `format_bytes` yields the total divided by
`1024 ^ n` together with the matching unit label among
bytes/kb/mb/gb/tb, where `n` is the magnitude class selected by the
repeated-division loop. -/
theorem C9_format_bytes_units (S : ℕ) (h : S ≤ 1024 ^ 5) :
    ∃ n, n ≤ 4 ∧
      format_bytes S = some ((S : ℚ) / 1024 ^ n, power_labels.getD n "") ∧
      (S : ℚ) ≤ 1024 ^ (n + 1) ∧ (n = 0 ∨ (1024 : ℚ) ^ n < (S : ℚ)) := by
  have cast_le : ∀ j : ℕ, S ≤ 1024 ^ j → (S : ℚ) ≤ 1024 ^ j := by
    intro j hj
    exact_mod_cast hj
  have cast_lt : ∀ j : ℕ, 1024 ^ j < S → (1024 : ℚ) ^ j < (S : ℚ) := by
    intro j hj
    exact_mod_cast hj
  by_cases h0 : S ≤ 1024 ^ 1
  · refine ⟨0, by omega, ?_, by simpa using cast_le 1 h0, Or.inl rfl⟩
    simp only [format_bytes]
    rw [fb_go_spec 0 (S : ℚ) 0 (by positivity) (by simpa using cast_le 1 h0) (Or.inl rfl)]
    rfl
  by_cases h1 : S ≤ 1024 ^ 2
  · refine ⟨1, by omega, ?_, by simpa using cast_le 2 h1,
      Or.inr (by simpa using cast_lt 1 (by omega))⟩
    simp only [format_bytes]
    rw [fb_go_spec 1 (S : ℚ) 0 (by positivity) (by simpa using cast_le 2 h1)
      (Or.inr (by simpa using cast_lt 1 (by omega)))]
    rfl
  by_cases h2 : S ≤ 1024 ^ 3
  · refine ⟨2, by omega, ?_, by simpa using cast_le 3 h2,
      Or.inr (by simpa using cast_lt 2 (by omega))⟩
    simp only [format_bytes]
    rw [fb_go_spec 2 (S : ℚ) 0 (by positivity) (by simpa using cast_le 3 h2)
      (Or.inr (by simpa using cast_lt 2 (by omega)))]
    rfl
  by_cases h3 : S ≤ 1024 ^ 4
  · refine ⟨3, by omega, ?_, by simpa using cast_le 4 h3,
      Or.inr (by simpa using cast_lt 3 (by omega))⟩
    simp only [format_bytes]
    rw [fb_go_spec 3 (S : ℚ) 0 (by positivity) (by simpa using cast_le 4 h3)
      (Or.inr (by simpa using cast_lt 3 (by omega)))]
    rfl
  · refine ⟨4, by omega, ?_, by simpa using cast_le 5 h,
      Or.inr (by simpa using cast_lt 4 (by omega))⟩
    simp only [format_bytes]
    rw [fb_go_spec 4 (S : ℚ) 0 (by positivity) (by simpa using cast_le 5 h)
      (Or.inr (by simpa using cast_lt 4 (by omega)))]
    rfl

/-- Witness for C9 at the concrete total 2048 (prints as kb). -/
theorem C9_format_bytes_units_witness :
    2048 ≤ 1024 ^ 5 ∧
    ∃ n, n ≤ 4 ∧
      format_bytes 2048 = some (((2048 : ℕ) : ℚ) / 1024 ^ n, power_labels.getD n "") ∧
      ((2048 : ℕ) : ℚ) ≤ 1024 ^ (n + 1) ∧ (n = 0 ∨ (1024 : ℚ) ^ n < ((2048 : ℕ) : ℚ)) :=
  ⟨by norm_num, C9_format_bytes_units 2048 (by norm_num)⟩

/-- C7: the generation sequence consists of exactly the top-level entries
whose names do not end with the run-log suffix `.log.csv`, ordered
descending by name; and if any remaining entry is not a directory the run
fails with the configuration error before producing any run artifact (no
log file, no deletion). -/
theorem C7_generation_enumeration (root : List RootEntry) (now : String) (dry ac : Bool) :
    (∀ e, e ∈ genChildren root ↔ e ∈ root ∧ keepEntry e = true)
    ∧ DescBy (genChildren root)
    ∧ ((∃ e ∈ genChildren root, e.content = none) →
        deduplicate now root dry ac = .error .configurationError) := by
  refine ⟨?_, List.Pairwise.filter _ (sortDesc_sorted root), ?_⟩
  · intro e
    rw [genChildren, List.mem_filter, (sortDesc_perm root).mem_iff]
  · intro hex
    unfold deduplicate
    rw [checkDirs_none_iff.mpr hex]

/-- Witness for C7: a root with a stray non-directory entry is enumerated
(descending, excluding nothing here) and makes the run fail fatally. -/
theorem C7_generation_enumeration_witness :
    (⟨"junk", none⟩ : RootEntry) ∈
        genChildren [⟨"2024", some (DirTree.mk [] [])⟩, ⟨"junk", none⟩] ∧
    deduplicate "T" [⟨"2024", some (DirTree.mk [] [])⟩, ⟨"junk", none⟩] true true =
      .error .configurationError := by
  have h := C7_generation_enumeration
    [⟨"2024", some (DirTree.mk [] [])⟩, ⟨"junk", none⟩] "T" true true
  have hmem : (⟨"junk", (none : Option DirTree)⟩ : RootEntry) ∈
      genChildren [⟨"2024", some (DirTree.mk [] [])⟩, ⟨"junk", none⟩] := by
    rw [show genChildren [⟨"2024", some (DirTree.mk [] [])⟩, ⟨"junk", none⟩] =
      [⟨"junk", none⟩, ⟨"2024", some (DirTree.mk [] [])⟩] from rfl]
    exact List.mem_cons_self _ _
  exact ⟨hmem, h.2.2 ⟨_, hmem, rfl⟩⟩

theorem scanFile_none_true_eq (dry : Bool) (mname gname : String) (f : List String) (S : Nat)
    (T : Int) (t : DirTree) (rest : List (String × DirTree)) (hl : t.lookupFile f = none) :
    scanFile true dry mname f S T ((gname, t) :: rest) =
      ([Event.probe (gname :: f)], 0, (gname, t) :: rest) := by
  simp [scanFile, hl]

theorem scanFile_none_false_eq (dry : Bool) (mname gname : String) (f : List String) (S : Nat)
    (T : Int) (t : DirTree) (rest : List (String × DirTree)) (hl : t.lookupFile f = none) :
    scanFile false dry mname f S T ((gname, t) :: rest) =
      (Event.probe (gname :: f) :: (scanFile false dry mname f S T rest).1,
       (scanFile false dry mname f S T rest).2.1,
       (gname, t) :: (scanFile false dry mname f S T rest).2.2) := by
  simp [scanFile, hl]

theorem scanFile_mismatch_true_eq (dry : Bool) (mname gname : String) (f : List String) (S : Nat)
    (T : Int) (t : DirTree) (m : FileMeta) (rest : List (String × DirTree))
    (hl : t.lookupFile f = some m) (hs : m.st_size ≠ S) :
    scanFile true dry mname f S T ((gname, t) :: rest) =
      ([Event.probe (gname :: f)], 0, (gname, t) :: rest) := by
  simp [scanFile, hl, hs]

theorem scanFile_mismatch_false_eq (dry : Bool) (mname gname : String) (f : List String) (S : Nat)
    (T : Int) (t : DirTree) (m : FileMeta) (rest : List (String × DirTree))
    (hl : t.lookupFile f = some m) (hs : m.st_size ≠ S) :
    scanFile false dry mname f S T ((gname, t) :: rest) =
      (Event.probe (gname :: f) :: (scanFile false dry mname f S T rest).1,
       (scanFile false dry mname f S T rest).2.1,
       (gname, t) :: (scanFile false dry mname f S T rest).2.2) := by
  simp [scanFile, hl, hs]

theorem scanFile_sameNames (ac dry : Bool) (mname : String) (f : List String) (S : Nat) (T : Int) :
    ∀ gens : List (String × DirTree),
      ((scanFile ac dry mname f S T gens).2.2).map (fun g => g.1) = gens.map (fun g => g.1)
  | [] => rfl
  | (gname, t) :: rest => by
    have ih := scanFile_sameNames ac dry mname f S T rest
    cases hl : t.lookupFile f with
    | none =>
      cases ac
      · rw [scanFile_none_false_eq dry mname gname f S T t rest hl]
        simpa using ih
      · rw [scanFile_none_true_eq dry mname gname f S T t rest hl]
    | some m =>
      by_cases hs : m.st_size = S
      · rw [scanFile_match_eq ac dry mname gname f S T t m rest hl hs]
        simpa using ih
      · cases ac
        · rw [scanFile_mismatch_false_eq dry mname gname f S T t m rest hl hs]
          simpa using ih
        · rw [scanFile_mismatch_true_eq dry mname gname f S T t m rest hl hs]

theorem scanAll_sameNames (ac dry : Bool) (mname : String) :
    ∀ (cands : List (List String × FileMeta)) (gens : List (String × DirTree)),
      ((scanAll ac dry mname cands gens).2.2).map (fun g => g.1) = gens.map (fun g => g.1)
  | [], _ => rfl
  | (f, meta) :: fs, gens => by
    show ((scanAll ac dry mname fs (scanFile ac dry mname f meta.st_size meta.st_ctime gens).2.2).2.2).map
        (fun g => g.1) = gens.map (fun g => g.1)
    rw [scanAll_sameNames ac dry mname fs _,
      scanFile_sameNames ac dry mname f meta.st_size meta.st_ctime gens]

theorem scanFile_event_shape (ac dry : Bool) (mname : String) (f : List String) (S : Nat)
    (T : Int) : ∀ (gens : List (String × DirTree)) (e : Event),
      e ∈ (scanFile ac dry mname f S T gens).1 →
      ∃ g ∈ gens, e = Event.probe (g.1 :: f) ∨ (∃ rw, e = Event.logRow rw) ∨
        e = Event.deleteCall (g.1 :: f) ∨ e = Event.unlink (g.1 :: f)
  | [], e, he => absurd he (List.not_mem_nil e)
  | (gname, t) :: rest, e, he => by
    have push : (∃ g ∈ rest, e = Event.probe (g.1 :: f) ∨ (∃ rw, e = Event.logRow rw) ∨
        e = Event.deleteCall (g.1 :: f) ∨ e = Event.unlink (g.1 :: f)) →
        ∃ g ∈ (gname, t) :: rest, e = Event.probe (g.1 :: f) ∨ (∃ rw, e = Event.logRow rw) ∨
        e = Event.deleteCall (g.1 :: f) ∨ e = Event.unlink (g.1 :: f) := by
      rintro ⟨g, hg, hc⟩
      exact ⟨g, List.mem_cons_of_mem _ hg, hc⟩
    have self : ∀ hc : e = Event.probe (gname :: f) ∨ (∃ rw, e = Event.logRow rw) ∨
        e = Event.deleteCall (gname :: f) ∨ e = Event.unlink (gname :: f),
        ∃ g ∈ (gname, t) :: rest, e = Event.probe (g.1 :: f) ∨ (∃ rw, e = Event.logRow rw) ∨
        e = Event.deleteCall (g.1 :: f) ∨ e = Event.unlink (g.1 :: f) :=
      fun hc => ⟨(gname, t), List.mem_cons_self _ _, hc⟩
    cases hl : t.lookupFile f with
    | none =>
      cases ac
      · rw [scanFile_none_false_eq dry mname gname f S T t rest hl] at he
        rcases List.mem_cons.mp he with rfl | he
        · exact self (Or.inl rfl)
        · exact push (scanFile_event_shape false dry mname f S T rest e he)
      · rw [scanFile_none_true_eq dry mname gname f S T t rest hl] at he
        rcases List.mem_singleton.mp he with rfl
        exact self (Or.inl rfl)
    | some m =>
      by_cases hs : m.st_size = S
      · rw [scanFile_match_eq ac dry mname gname f S T t m rest hl hs] at he
        simp only [List.mem_cons, List.mem_append] at he
        rcases he with rfl | rfl | rfl | he
        · exact self (Or.inl rfl)
        · exact self (Or.inr (Or.inl ⟨_, rfl⟩))
        · exact self (Or.inr (Or.inr (Or.inl rfl)))
        · rcases he with he | he
          · cases dry
            · rcases List.mem_singleton.mp he with rfl
              exact self (Or.inr (Or.inr (Or.inr rfl)))
            · simp at he
          · exact push (scanFile_event_shape ac dry mname f S T rest e he)
      · cases ac
        · rw [scanFile_mismatch_false_eq dry mname gname f S T t m rest hl hs] at he
          rcases List.mem_cons.mp he with rfl | he
          · exact self (Or.inl rfl)
          · exact push (scanFile_event_shape false dry mname f S T rest e he)
        · rw [scanFile_mismatch_true_eq dry mname gname f S T t m rest hl hs] at he
          rcases List.mem_singleton.mp he with rfl
          exact self (Or.inl rfl)

theorem scanAll_event_shape (ac dry : Bool) (mname : String) :
    ∀ (cands : List (List String × FileMeta)) (gens : List (String × DirTree)) (e : Event),
      e ∈ (scanAll ac dry mname cands gens).1 →
      (∃ rw, e = Event.logRow rw) ∨
        ∃ gn ∈ gens.map (fun g => g.1), ∃ q, e = Event.probe (gn :: q) ∨
          e = Event.deleteCall (gn :: q) ∨ e = Event.unlink (gn :: q)
  | [], _, e, he => absurd he (List.not_mem_nil e)
  | (f, meta) :: fs, gens, e, he => by
    rcases List.mem_append.mp he with he | he
    · rcases scanFile_event_shape ac dry mname f meta.st_size meta.st_ctime gens e he with
        ⟨g, hg, hc⟩
      rcases hc with rfl | ⟨rw, rfl⟩ | rfl | rfl
      · exact Or.inr ⟨g.1, List.mem_map_of_mem _ hg, f, Or.inl rfl⟩
      · exact Or.inl ⟨rw, rfl⟩
      · exact Or.inr ⟨g.1, List.mem_map_of_mem _ hg, f, Or.inr (Or.inl rfl)⟩
      · exact Or.inr ⟨g.1, List.mem_map_of_mem _ hg, f, Or.inr (Or.inr rfl)⟩
    · have ih := scanAll_event_shape ac dry mname fs _ e he
      rcases ih with h | ⟨gn, hgn, q, hc⟩
      · exact Or.inl h
      · rw [scanFile_sameNames ac dry mname f meta.st_size meta.st_ctime gens] at hgn
        exact Or.inr ⟨gn, hgn, q, hc⟩

theorem deduplicate_dry_eq (now : String) (root : List RootEntry) (ac : Bool)
    (mname : String) (mtree : DirTree) (olds : List (String × DirTree))
    (hgens : checkDirs (genChildren root) = some ((mname, mtree) :: olds)) :
    deduplicate now root true ac =
      .ok ⟨(scanAll ac true mname (candidates mtree) olds).1,
           (scanAll ac true mname (candidates mtree) olds).2.1,
           (scanAll ac true mname (candidates mtree) olds).2.2,
           root ++ [⟨logFileName now true, none⟩]⟩ := by
  unfold deduplicate
  rw [hgens]
  rfl

theorem deduplicate_real_eq (now : String) (root : List RootEntry) (ac : Bool)
    (mname : String) (mtree : DirTree) (olds : List (String × DirTree))
    (hgens : checkDirs (genChildren root) = some ((mname, mtree) :: olds)) :
    deduplicate now root false ac =
      .ok ⟨(scanAll ac false mname (candidates mtree) olds).1 ++
             (((scanAll ac false mname (candidates mtree) olds).2.2.map
                 (fun g => (g.1, g.2, delete_empty_folders g.2))).map
               (fun g => g.2.2.map (fun d => Event.rmdir (g.1 :: d)))).flatten,
           (scanAll ac false mname (candidates mtree) olds).2.1,
           (scanAll ac false mname (candidates mtree) olds).2.2,
           (root.filter (fun e => !(keepEntry e))) ++
             (⟨mname, some mtree⟩ : RootEntry) ::
               (((scanAll ac false mname (candidates mtree) olds).2.2.map
                   (fun g => (g.1, g.2, delete_empty_folders g.2))).filterMap
                 (fun g => if ([] : List String) ∈ g.2.2 then none
                    else some (⟨g.1, some (g.2.1.prune g.2.2 [])⟩ : RootEntry))) ++
             [⟨logFileName now false, none⟩]⟩ := by
  unfold deduplicate
  rw [hgens]
  rfl

theorem genChildren_names_nodup (root : List RootEntry)
    (h : (root.map (fun e => e.name)).Nodup) :
    ((genChildren root).map (fun e => e.name)).Nodup := by
  have hperm : ((sortDesc root).map (fun e => e.name)).Perm (root.map (fun e => e.name)) :=
    (sortDesc_perm root).map _
  have hsd : ((sortDesc root).map (fun e => e.name)).Nodup := hperm.nodup_iff.mpr h
  exact ((List.filter_sublist _).map _).nodup hsd

/-- C1: under distinct top-level names, a successful run (any dry-run /
continuity setting) never unlinks a file or removes a directory under the
master generation: every unlink and every directory removal targets a path
whose first component is the name of one of the older generations, and the
master generation entry survives in the resulting root with its tree
unchanged. -/
theorem C1_master_invariance (now : String) (root : List RootEntry) (dry ac : Bool)
    (r : RunResult) (mname : String) (mtree : DirTree) (olds : List (String × DirTree))
    (hnodup : (root.map (fun e => e.name)).Nodup)
    (hgens : checkDirs (genChildren root) = some ((mname, mtree) :: olds))
    (h : deduplicate now root dry ac = .ok r) :
    (∀ p, Event.unlink p ∈ r.trace →
        ∃ gn ∈ olds.map (fun g => g.1), p.head? = some gn ∧ gn ≠ mname)
    ∧ (∀ p, Event.rmdir p ∈ r.trace →
        ∃ gn ∈ olds.map (fun g => g.1), p.head? = some gn ∧ gn ≠ mname)
    ∧ (⟨mname, some mtree⟩ : RootEntry) ∈ r.entries := by
  have hch : genChildren root =
      (⟨mname, some mtree⟩ : RootEntry) :: olds.map (fun g => (⟨g.1, some g.2⟩ : RootEntry)) := by
    simpa using checkDirs_some_eq hgens
  have hnames : (mname :: olds.map (fun g => g.1)).Nodup := by
    have h1 := genChildren_names_nodup root hnodup
    rw [hch] at h1
    simpa [List.map_map, Function.comp] using h1
  have hne : ∀ gn ∈ olds.map (fun g => g.1), gn ≠ mname := by
    intro gn hgn he
    exact (List.nodup_cons.mp hnames).1 (he ▸ hgn)
  have hmem_root : (⟨mname, some mtree⟩ : RootEntry) ∈ root := by
    have hgc : (⟨mname, some mtree⟩ : RootEntry) ∈ genChildren root := by
      rw [hch]; exact List.mem_cons_self _ _
    exact (sortDesc_perm root).subset (List.mem_filter.mp hgc).1
  cases dry
  · rw [deduplicate_real_eq now root ac mname mtree olds hgens] at h
    injection h with h
    subst h
    refine ⟨?_, ?_, ?_⟩
    · intro p hp
      rcases List.mem_append.mp hp with hp | hp
      · rcases scanAll_event_shape ac false mname _ olds _ hp with ⟨rw', habs⟩ | ⟨gn, hgn, q, hc⟩
        · exact absurd habs (by simp)
        · rcases hc with hc | hc | hc
          · exact absurd hc (by simp)
          · exact absurd hc (by simp)
          · rcases Event.unlink.inj hc with rfl
            exact ⟨gn, hgn, rfl, hne gn hgn⟩
      · exfalso
        rcases List.mem_flatten.mp hp with ⟨l, hl, hel⟩
        rcases List.mem_map.mp hl with ⟨g2, _, rfl⟩
        rcases List.mem_map.mp hel with ⟨d, _, hcon⟩
        exact absurd hcon (by simp)
    · intro p hp
      rcases List.mem_append.mp hp with hp | hp
      · rcases scanAll_event_shape ac false mname _ olds _ hp with ⟨rw', habs⟩ | ⟨gn, hgn, q, hc⟩
        · exact absurd habs (by simp)
        · rcases hc with hc | hc | hc <;> exact absurd hc (by simp)
      · rcases List.mem_flatten.mp hp with ⟨l, hl, hel⟩
        rcases List.mem_map.mp hl with ⟨g2, hg2, rfl⟩
        rcases List.mem_map.mp hel with ⟨d, _, hcon⟩
        rcases Event.rmdir.inj hcon.symm with rfl
        rcases List.mem_map.mp hg2 with ⟨g0, hg0, rfl⟩
        have hgn : g0.1 ∈ olds.map (fun g => g.1) := by
          have := scanAll_sameNames ac false mname (candidates mtree) olds
          rw [← this]
          exact List.mem_map_of_mem _ hg0
        exact ⟨g0.1, hgn, rfl, hne g0.1 hgn⟩
    · simp
  · rw [deduplicate_dry_eq now root ac mname mtree olds hgens] at h
    injection h with h
    subst h
    refine ⟨?_, ?_, ?_⟩
    · intro p hp
      rcases scanAll_event_shape ac true mname _ olds _ hp with ⟨rw', habs⟩ | ⟨gn, hgn, q, hc⟩
      · exact absurd habs (by simp)
      · rcases hc with hc | hc | hc
        · exact absurd hc (by simp)
        · exact absurd hc (by simp)
        · rcases Event.unlink.inj hc with rfl
          exact ⟨gn, hgn, rfl, hne gn hgn⟩
    · intro p hp
      rcases scanAll_event_shape ac true mname _ olds _ hp with ⟨rw', habs⟩ | ⟨gn, hgn, q, hc⟩
      · exact absurd habs (by simp)
      · rcases hc with hc | hc | hc <;> exact absurd hc (by simp)
    · exact List.mem_append.mpr (Or.inl hmem_root)

/-- Witness for C1: a concrete real-mode run keeps the master generation
entry (name and tree unchanged) in the resulting root. -/
theorem C1_master_invariance_witness :
    (⟨"2024", some (DirTree.mk [("a.jpg", ⟨5, 3⟩)] [])⟩ : RootEntry) ∈
      runEntries (deduplicate "T"
        [⟨"2024", some (DirTree.mk [("a.jpg", ⟨5, 3⟩)] [])⟩,
         ⟨"2023", some (DirTree.mk [("a.jpg", ⟨5, 1⟩)] [])⟩] false true) := by
  cases h : deduplicate "T"
      [⟨"2024", some (DirTree.mk [("a.jpg", ⟨5, 3⟩)] [])⟩,
       ⟨"2023", some (DirTree.mk [("a.jpg", ⟨5, 1⟩)] [])⟩] false true with
  | error e =>
    have hok : (deduplicate "T"
        [⟨"2024", some (DirTree.mk [("a.jpg", ⟨5, 3⟩)] [])⟩,
         ⟨"2023", some (DirTree.mk [("a.jpg", ⟨5, 1⟩)] [])⟩] false true).isOk = true := by
      decide
    rw [h] at hok
    simp [Except.isOk, Except.toBool] at hok
  | ok r =>
    have hgens : checkDirs (genChildren
        [⟨"2024", some (DirTree.mk [("a.jpg", ⟨5, 3⟩)] [])⟩,
         ⟨"2023", some (DirTree.mk [("a.jpg", ⟨5, 1⟩)] [])⟩]) =
        some (("2024", DirTree.mk [("a.jpg", ⟨5, 3⟩)] []) ::
          [("2023", DirTree.mk [("a.jpg", ⟨5, 1⟩)] [])]) := rfl
    have hnodup : (([⟨"2024", some (DirTree.mk [("a.jpg", ⟨5, 3⟩)] [])⟩,
        ⟨"2023", some (DirTree.mk [("a.jpg", ⟨5, 1⟩)] [])⟩] : List RootEntry).map
          (fun e => e.name)).Nodup := by decide
    have hc := C1_master_invariance "T"
      [⟨"2024", some (DirTree.mk [("a.jpg", ⟨5, 3⟩)] [])⟩,
       ⟨"2023", some (DirTree.mk [("a.jpg", ⟨5, 1⟩)] [])⟩] false true r
      "2024" (DirTree.mk [("a.jpg", ⟨5, 3⟩)] [])
      [("2023", DirTree.mk [("a.jpg", ⟨5, 1⟩)] [])] hnodup hgens h
    exact hc.2.2

theorem find?_filter_of_imp {α : Type} (p q : α → Bool) (h : ∀ a, q a = false → p a = false) :
    ∀ l : List α, List.find? p (l.filter q) = List.find? p l
  | [] => rfl
  | a :: l => by
    cases hqa : q a with
    | false =>
      rw [List.filter_cons_of_neg (by simp [hqa]), List.find?_cons_of_neg _ (by simp [h a hqa])]
      exact find?_filter_of_imp p q h l
    | true =>
      rw [List.filter_cons_of_pos hqa]
      cases hpa : p a with
      | true => rw [List.find?_cons_of_pos _ hpa, List.find?_cons_of_pos _ hpa]
      | false =>
        rw [List.find?_cons_of_neg _ (by simp [hpa]), List.find?_cons_of_neg _ (by simp [hpa])]
        exact find?_filter_of_imp p q h l

theorem findFile_filter_self (n : String) (files : List (String × FileMeta)) :
    findFile n (files.filter (fun q => !(q.1 == n))) = none := by
  have h : List.find? (fun q => q.1 == n) (files.filter (fun q => !(q.1 == n))) = none := by
    rw [List.find?_eq_none]
    intro q hq
    simpa using (List.mem_filter.mp hq).2
  rw [findFile, h]
  rfl

theorem findFile_filter_other {n n' : String} (hne : n' ≠ n) (files : List (String × FileMeta)) :
    findFile n' (files.filter (fun q => !(q.1 == n))) = findFile n' files := by
  rw [findFile, findFile, find?_filter_of_imp]
  intro a ha
  have ha' : a.1 = n := by simpa using ha
  subst ha'
  simpa using fun he => hne he.symm

mutual

theorem deleteFile_lookup_self : ∀ (t : DirTree) (f : List String),
    (t.deleteFile f).lookupFile f = none
  | .mk files subs, [] => rfl
  | .mk files subs, [n] => by
    show findFile n (files.filter (fun q => !(q.1 == n))) = none
    exact findFile_filter_self n files
  | .mk files subs, n :: r :: rest => by
    show lookupInSubs n (r :: rest) (deleteInSubs n (r :: rest) subs) = none
    exact lookupInSubs_deleteInSubs_self n (r :: rest) subs

theorem lookupInSubs_deleteInSubs_self : ∀ (n : String) (rest : List String)
    (subs : List (String × DirTree)),
    lookupInSubs n rest (deleteInSubs n rest subs) = none
  | n, rest, [] => rfl
  | n, rest, (m, t) :: others => by
    by_cases hm : m = n
    · have h1 : (m == n) = true := by simp [hm]
      show lookupInSubs n rest (if (m == n) = true then (m, t.deleteFile rest) :: others
        else (m, t) :: deleteInSubs n rest others) = none
      rw [if_pos h1]
      show (if (m == n) = true then (t.deleteFile rest).lookupFile rest
        else lookupInSubs n rest others) = none
      rw [if_pos h1]
      exact deleteFile_lookup_self t rest
    · have h1 : (m == n) = false := by simp [hm]
      show lookupInSubs n rest (if (m == n) = true then (m, t.deleteFile rest) :: others
        else (m, t) :: deleteInSubs n rest others) = none
      rw [if_neg (by simp [h1])]
      show (if (m == n) = true then t.lookupFile rest
        else lookupInSubs n rest (deleteInSubs n rest others)) = none
      rw [if_neg (by simp [h1])]
      exact lookupInSubs_deleteInSubs_self n rest others

end

mutual

theorem deleteFile_lookup_other : ∀ (t : DirTree) (f f' : List String), f' ≠ f →
    (t.deleteFile f).lookupFile f' = t.lookupFile f'
  | .mk files subs, [], f', hne => rfl
  | .mk files subs, [n], f', hne => by
    match f' with
    | [] => rfl
    | [n'] =>
      have hne' : n' ≠ n := fun he => hne (by rw [he])
      show findFile n' (files.filter (fun q => !(q.1 == n))) = findFile n' files
      exact findFile_filter_other hne' files
    | n' :: r' :: rest' => rfl
  | .mk files subs, n :: r :: rest, f', hne => by
    match f' with
    | [] => rfl
    | [n'] => rfl
    | n' :: r' :: rest' =>
      show lookupInSubs n' (r' :: rest') (deleteInSubs n (r :: rest) subs) =
        lookupInSubs n' (r' :: rest') subs
      by_cases hn : n' = n
      · subst hn
        have hrest : r' :: rest' ≠ r :: rest := fun he => hne (by rw [he])
        exact lookupInSubs_deleteInSubs_samename n' (r :: rest) (r' :: rest') hrest subs
      · exact lookupInSubs_deleteInSubs_diffname n n' (r :: rest) (r' :: rest') hn subs

theorem lookupInSubs_deleteInSubs_samename : ∀ (n : String) (rest rest' : List String),
    rest' ≠ rest → ∀ subs : List (String × DirTree),
    lookupInSubs n rest' (deleteInSubs n rest subs) = lookupInSubs n rest' subs
  | n, rest, rest', hne, [] => rfl
  | n, rest, rest', hne, (m, t) :: others => by
    by_cases hm : m = n
    · have h1 : (m == n) = true := by simp [hm]
      show lookupInSubs n rest' (if (m == n) = true then (m, t.deleteFile rest) :: others
        else (m, t) :: deleteInSubs n rest others) = lookupInSubs n rest' ((m, t) :: others)
      rw [if_pos h1]
      show (if (m == n) = true then (t.deleteFile rest).lookupFile rest'
          else lookupInSubs n rest' others) =
        (if (m == n) = true then t.lookupFile rest' else lookupInSubs n rest' others)
      rw [if_pos h1, if_pos h1]
      exact deleteFile_lookup_other t rest rest' hne
    · have h1 : (m == n) = false := by simp [hm]
      show lookupInSubs n rest' (if (m == n) = true then (m, t.deleteFile rest) :: others
        else (m, t) :: deleteInSubs n rest others) = lookupInSubs n rest' ((m, t) :: others)
      rw [if_neg (by simp [h1])]
      show (if (m == n) = true then t.lookupFile rest'
          else lookupInSubs n rest' (deleteInSubs n rest others)) =
        (if (m == n) = true then t.lookupFile rest' else lookupInSubs n rest' others)
      rw [if_neg (by simp [h1]), if_neg (by simp [h1])]
      exact lookupInSubs_deleteInSubs_samename n rest rest' hne others

theorem lookupInSubs_deleteInSubs_diffname : ∀ (n n' : String) (rest rest' : List String),
    n' ≠ n → ∀ subs : List (String × DirTree),
    lookupInSubs n' rest' (deleteInSubs n rest subs) = lookupInSubs n' rest' subs
  | n, n', rest, rest', hne, [] => rfl
  | n, n', rest, rest', hne, (m, t) :: others => by
    by_cases hm : m = n
    · have h1 : (m == n) = true := by simp [hm]
      have h2 : (m == n') = false := by
        subst hm
        simpa using fun he => hne he.symm
      show lookupInSubs n' rest' (if (m == n) = true then (m, t.deleteFile rest) :: others
        else (m, t) :: deleteInSubs n rest others) = lookupInSubs n' rest' ((m, t) :: others)
      rw [if_pos h1]
      show (if (m == n') = true then (t.deleteFile rest).lookupFile rest'
          else lookupInSubs n' rest' others) =
        (if (m == n') = true then t.lookupFile rest' else lookupInSubs n' rest' others)
      rw [if_neg (by simp [h2]), if_neg (by simp [h2])]
    · have h1 : (m == n) = false := by simp [hm]
      show lookupInSubs n' rest' (if (m == n) = true then (m, t.deleteFile rest) :: others
        else (m, t) :: deleteInSubs n rest others) = lookupInSubs n' rest' ((m, t) :: others)
      rw [if_neg (by simp [h1])]
      show (if (m == n') = true then t.lookupFile rest'
          else lookupInSubs n' rest' (deleteInSubs n rest others)) =
        (if (m == n') = true then t.lookupFile rest' else lookupInSubs n' rest' others)
      by_cases hm' : (m == n') = true
      · rw [if_pos hm', if_pos hm']
      · rw [if_neg hm', if_neg hm']
        exact lookupInSubs_deleteInSubs_diffname n n' rest rest' hne others

end

theorem LookEq_mono {P Q : List String → Prop} (h : ∀ f, Q f → P f)
    {g₁ g₂ : List (String × DirTree)} (hle : LookEq P g₁ g₂) : LookEq Q g₁ g₂ :=
  List.Forall₂.imp (fun _ _ hab => ⟨hab.1, fun f hf => hab.2 f (h f hf)⟩) hle

theorem LookEq_refl (P : List String → Prop) (gens : List (String × DirTree)) :
    LookEq P gens gens :=
  List.forall₂_same.mpr (fun _ _ => ⟨rfl, fun _ _ => rfl⟩)

theorem scanFile_fidelity (ac dry₁ dry₂ : Bool) (mname : String) (P : List String → Prop)
    (f : List String) (hf : P f) (S : Nat) (T : Int) :
    ∀ (gens₁ gens₂ : List (String × DirTree)), LookEq P gens₁ gens₂ →
      rowsOf (scanFile ac dry₁ mname f S T gens₁).1 =
          rowsOf (scanFile ac dry₂ mname f S T gens₂).1
      ∧ (scanFile ac dry₁ mname f S T gens₁).2.1 = (scanFile ac dry₂ mname f S T gens₂).2.1
      ∧ LookEq (fun f' => P f' ∧ f' ≠ f) (scanFile ac dry₁ mname f S T gens₁).2.2
          (scanFile ac dry₂ mname f S T gens₂).2.2
  | [], gens₂, h => by
    cases h
    exact ⟨rfl, rfl, List.Forall₂.nil⟩
  | (n₁, t₁) :: rest₁, _, h => by
    rcases h with - | ⟨⟨hname, hlook⟩, hrest⟩
    rename_i b rest₂
    obtain ⟨n₂, t₂⟩ := b
    simp only at hname
    subst hname
    have hlf := hlook f hf
    have ihall := scanFile_fidelity ac dry₁ dry₂ mname P f hf S T rest₁ rest₂ hrest
    cases hl₁ : t₁.lookupFile f with
    | none =>
      have hl₂ : t₂.lookupFile f = none := by rw [← hlf]; exact hl₁
      cases ac
      · rw [scanFile_none_false_eq dry₁ mname n₁ f S T t₁ rest₁ hl₁,
          scanFile_none_false_eq dry₂ mname n₁ f S T t₂ rest₂ hl₂]
        refine ⟨?_, ihall.2.1, ?_⟩
        · rw [rowsOf_cons_probe, rowsOf_cons_probe, ihall.1]
        · exact List.Forall₂.cons ⟨rfl, fun f' hf' => hlook f' hf'.1⟩ ihall.2.2
      · rw [scanFile_none_true_eq dry₁ mname n₁ f S T t₁ rest₁ hl₁,
          scanFile_none_true_eq dry₂ mname n₁ f S T t₂ rest₂ hl₂]
        refine ⟨rfl, rfl, ?_⟩
        exact List.Forall₂.cons ⟨rfl, fun f' hf' => hlook f' hf'.1⟩
          (LookEq_mono (fun f' h' => h'.1) hrest)
    | some m =>
      have hl₂ : t₂.lookupFile f = some m := by rw [← hlf]; exact hl₁
      by_cases hs : m.st_size = S
      · rw [scanFile_match_eq ac dry₁ mname n₁ f S T t₁ m rest₁ hl₁ hs,
          scanFile_match_eq ac dry₂ mname n₁ f S T t₂ m rest₂ hl₂ hs]
        refine ⟨?_, by rw [ihall.2.1], ?_⟩
        · rw [rowsOf_cons_probe, rowsOf_cons_probe, rowsOf_cons_logRow, rowsOf_cons_logRow,
            rowsOf_cons_deleteCall, rowsOf_cons_deleteCall, rowsOf_append, rowsOf_append,
            ihall.1]
          have hu : ∀ (d : Bool) (pp : List String), rowsOf (if d then [] else [Event.unlink pp]) = [] := by
            intro d pp
            cases d <;> rfl
          rw [hu dry₁, hu dry₂]
        · refine List.Forall₂.cons ⟨rfl, ?_⟩ ihall.2.2
          intro f' hf'
          have e₁ : (if dry₁ then t₁ else t₁.deleteFile f).lookupFile f' = t₁.lookupFile f' := by
            cases dry₁
            · exact deleteFile_lookup_other t₁ f f' hf'.2
            · rfl
          have e₂ : (if dry₂ then t₂ else t₂.deleteFile f).lookupFile f' = t₂.lookupFile f' := by
            cases dry₂
            · exact deleteFile_lookup_other t₂ f f' hf'.2
            · rfl
          rw [e₁, e₂]
          exact hlook f' hf'.1
      · cases ac
        · rw [scanFile_mismatch_false_eq dry₁ mname n₁ f S T t₁ m rest₁ hl₁ hs,
            scanFile_mismatch_false_eq dry₂ mname n₁ f S T t₂ m rest₂ hl₂ hs]
          refine ⟨?_, ihall.2.1, ?_⟩
          · rw [rowsOf_cons_probe, rowsOf_cons_probe, ihall.1]
          · exact List.Forall₂.cons ⟨rfl, fun f' hf' => hlook f' hf'.1⟩ ihall.2.2
        · rw [scanFile_mismatch_true_eq dry₁ mname n₁ f S T t₁ m rest₁ hl₁ hs,
            scanFile_mismatch_true_eq dry₂ mname n₁ f S T t₂ m rest₂ hl₂ hs]
          refine ⟨rfl, rfl, ?_⟩
          exact List.Forall₂.cons ⟨rfl, fun f' hf' => hlook f' hf'.1⟩
            (LookEq_mono (fun f' h' => h'.1) hrest)

theorem scanAll_cons_eq (ac dry : Bool) (mname : String) (f : List String) (meta : FileMeta)
    (fs : List (List String × FileMeta)) (gens : List (String × DirTree)) :
    scanAll ac dry mname ((f, meta) :: fs) gens =
      ((scanFile ac dry mname f meta.st_size meta.st_ctime gens).1 ++
         (scanAll ac dry mname fs (scanFile ac dry mname f meta.st_size meta.st_ctime gens).2.2).1,
       (scanFile ac dry mname f meta.st_size meta.st_ctime gens).2.1 +
         (scanAll ac dry mname fs (scanFile ac dry mname f meta.st_size meta.st_ctime gens).2.2).2.1,
       (scanAll ac dry mname fs (scanFile ac dry mname f meta.st_size meta.st_ctime gens).2.2).2.2) :=
  rfl

theorem scanAll_fidelity (ac dry₁ dry₂ : Bool) (mname : String) :
    ∀ (cands : List (List String × FileMeta)) (gens₁ gens₂ : List (String × DirTree)),
      (cands.map (fun q => q.1)).Nodup →
      LookEq (fun f => f ∈ cands.map (fun q => q.1)) gens₁ gens₂ →
      rowsOf (scanAll ac dry₁ mname cands gens₁).1 =
          rowsOf (scanAll ac dry₂ mname cands gens₂).1
      ∧ (scanAll ac dry₁ mname cands gens₁).2.1 = (scanAll ac dry₂ mname cands gens₂).2.1
  | [], gens₁, gens₂, _, _ => ⟨rfl, rfl⟩
  | (f, meta) :: fs, gens₁, gens₂, hnd, hle => by
    have h1 := scanFile_fidelity ac dry₁ dry₂ mname
      (fun f' => f' ∈ ((f, meta) :: fs).map (fun q => q.1)) f
      (List.mem_map_of_mem (fun q => q.1) (List.mem_cons_self (f, meta) fs))
      meta.st_size meta.st_ctime gens₁ gens₂ hle
    rw [List.map_cons] at hnd
    have hfnotin : f ∉ fs.map (fun q => q.1) := (List.nodup_cons.mp hnd).1
    have hmono : LookEq (fun f' => f' ∈ fs.map (fun q => q.1))
        (scanFile ac dry₁ mname f meta.st_size meta.st_ctime gens₁).2.2
        (scanFile ac dry₂ mname f meta.st_size meta.st_ctime gens₂).2.2 := by
      refine LookEq_mono ?_ h1.2.2
      intro f' hf'
      refine ⟨by simp [hf'], ?_⟩
      intro he
      exact hfnotin (he ▸ hf')
    have h2 := scanAll_fidelity ac dry₁ dry₂ mname fs _ _
      (List.nodup_cons.mp hnd).2 hmono
    rw [scanAll_cons_eq ac dry₁ mname f meta fs gens₁, scanAll_cons_eq ac dry₂ mname f meta fs gens₂]
    constructor
    · rw [rowsOf_append, rowsOf_append, h1.1, h2.1]
    · rw [h1.2.1, h2.2]

theorem subsFiles_shape : ∀ (subs : List (String × DirTree)) (q : List String × FileMeta),
    q ∈ subsFiles subs → ∃ n t p, (n, t) ∈ subs ∧ q.1 = n :: p ∧ (p, q.2) ∈ t.allFiles
  | [], q, h => absurd h (List.not_mem_nil q)
  | (n, t) :: rest, q, h => by
    rcases List.mem_append.mp h with h | h
    · rcases List.mem_map.mp h with ⟨q0, hq0, rfl⟩
      exact ⟨n, t, q0.1, List.mem_cons_self _ _, rfl, by simpa using hq0⟩
    · rcases subsFiles_shape rest q h with ⟨n', t', p, hmem, he, hin⟩
      exact ⟨n', t', p, List.mem_cons_of_mem _ hmem, he, hin⟩

theorem allFiles_ne_nil (t : DirTree) (q : List String × FileMeta) (h : q ∈ t.allFiles) :
    q.1 ≠ [] := by
  obtain ⟨files, subs⟩ := t
  rcases List.mem_append.mp h with h | h
  · rcases List.mem_map.mp h with ⟨q0, _, rfl⟩
    simp
  · rcases subsFiles_shape subs q h with ⟨n, t', p, _, he, _⟩
    rw [he]
    simp

theorem wfB_parts {files : List (String × FileMeta)} {subs : List (String × DirTree)}
    (h : (DirTree.mk files subs).wfB = true) :
    (files.map (fun q => q.1) ++ subs.map (fun g => g.1)).Nodup ∧ subsWfB subs = true := by
  rw [DirTree.wfB, Bool.and_eq_true] at h
  exact ⟨of_decide_eq_true h.1, h.2⟩

mutual

theorem allFiles_fst_nodup : ∀ t : DirTree, t.wfB = true →
    ((t.allFiles).map (fun q => q.1)).Nodup
  | .mk files subs, hwf => by
    obtain ⟨hcomb, hswf⟩ := wfB_parts hwf
    show ((files.map (fun q => ([q.1], q.2)) ++ subsFiles subs).map (fun q => q.1)).Nodup
    rw [List.map_append, List.nodup_append]
    refine ⟨?_, subsFiles_fst_nodup subs (hcomb.of_append_right) hswf, ?_⟩
    · have hstep : (files.map (fun q => (([q.1], q.2) : List String × FileMeta))).map
          (fun q => q.1) = (files.map (fun q => q.1)).map (fun nm => [nm]) := by
        simp [List.map_map, Function.comp]
      rw [hstep]
      exact (hcomb.of_append_left).map (fun a b hab => by simpa using hab)
    · intro x hx hy
      rcases List.mem_map.mp hx with ⟨q0, hq0, rfl⟩
      rcases List.mem_map.mp hq0 with ⟨q00, _, rfl⟩
      rcases List.mem_map.mp hy with ⟨q1, hq1, hq⟩
      rcases subsFiles_shape subs q1 hq1 with ⟨n, t', p, _, he, hin⟩
      have hp : p ≠ [] := allFiles_ne_nil t' (p, q1.2) hin
      rw [he] at hq
      rcases List.cons.inj hq with ⟨-, hq2⟩
      exact hp hq2

theorem subsFiles_fst_nodup : ∀ subs : List (String × DirTree),
    (subs.map (fun g => g.1)).Nodup → subsWfB subs = true →
    ((subsFiles subs).map (fun q => q.1)).Nodup
  | [], _, _ => List.Pairwise.nil
  | (n, t) :: rest, hnames, hwf => by
    rw [subsWfB, Bool.and_eq_true] at hwf
    rw [List.map_cons] at hnames
    show (((t.allFiles.map (fun q => (n :: q.1, q.2))) ++ subsFiles rest).map
      (fun q => q.1)).Nodup
    rw [List.map_append, List.nodup_append]
    refine ⟨?_, subsFiles_fst_nodup rest (List.nodup_cons.mp hnames).2 hwf.2, ?_⟩
    · have hstep : (t.allFiles.map (fun q => ((n :: q.1, q.2) : List String × FileMeta))).map
          (fun q => q.1) = (t.allFiles.map (fun q => q.1)).map (fun p => n :: p) := by
        simp [List.map_map, Function.comp]
      rw [hstep]
      exact (allFiles_fst_nodup t hwf.1).map (fun a b hab => by simpa using hab)
    · intro x hx hy
      rcases List.mem_map.mp hx with ⟨q0, hq0, rfl⟩
      rcases List.mem_map.mp hq0 with ⟨q00, _, rfl⟩
      rcases List.mem_map.mp hy with ⟨q1, hq1, hq⟩
      rcases subsFiles_shape rest q1 hq1 with ⟨m, t', p, hmrest, he, _⟩
      rw [he] at hq
      rcases List.cons.inj hq with ⟨hnm, -⟩
      have hnin : n ∉ rest.map (fun g => g.1) := (List.nodup_cons.mp hnames).1
      exact hnin (hnm ▸ List.mem_map_of_mem (fun g => g.1) hmrest)

end

theorem matchesExt_iff_suffix (name ex : String) :
    matchesExt name ex = true ↔ ("." ++ ex).data <:+ (lowerStr name).data := by
  rw [matchesExt, strEndsWith, List.isPrefixOf_iff_prefix, List.reverse_prefix]

theorem ext_suffix_unique {e₁ e₂ : String} (h₁ : '.' ∉ e₁.data) (h₂ : '.' ∉ e₂.data)
    {L : List Char} (hs₁ : ("." ++ e₁).data <:+ L) (hs₂ : ("." ++ e₂).data <:+ L) :
    e₁ = e₂ := by
  have hd₁ : ("." ++ e₁).data = '.' :: e₁.data := by rw [String.data_append]; rfl
  have hd₂ : ("." ++ e₂).data = '.' :: e₂.data := by rw [String.data_append]; rfl
  rw [hd₁] at hs₁
  rw [hd₂] at hs₂
  have hinj : e₁.data = e₂.data → e₁ = e₂ := by
    intro h
    cases e₁; cases e₂
    exact congrArg String.mk h
  rcases List.suffix_or_suffix_of_suffix hs₁ hs₂ with h | h
  · rcases List.suffix_cons_iff.mp h with h | h
    · exact hinj (List.cons.inj h).2
    · exact absurd (h.subset (List.mem_cons_self _ _)) h₂
  · rcases List.suffix_cons_iff.mp h with h | h
    · exact hinj (List.cons.inj h).2.symm
    · exact absurd (h.subset (List.mem_cons_self _ _)) h₁

theorem default_extensions_dotfree : ∀ ex ∈ DEFAULT_EXTENSIONS, '.' ∉ ex.data := by decide

theorem default_extensions_nodup : DEFAULT_EXTENSIONS.Nodup := by decide

theorem candidates_fst_nodup (t : DirTree) (hwf : t.wfB = true) :
    ((candidates t).map (fun q => q.1)).Nodup := by
  rw [candidates, List.map_flatten, List.map_map, List.nodup_flatten]
  constructor
  · intro l hl
    rcases List.mem_map.mp hl with ⟨ex, _, rfl⟩
    exact ((List.filter_sublist _).map _).nodup (allFiles_fst_nodup t hwf)
  · rw [List.pairwise_map]
    refine List.Pairwise.imp_of_mem ?_ default_extensions_nodup
    intro ex₁ ex₂ hex₁ hex₂ hne
    intro p hp₁ hp₂
    rcases List.mem_map.mp hp₁ with ⟨q₁, hq₁, rfl⟩
    rcases List.mem_map.mp hp₂ with ⟨q₂, hq₂, hq⟩
    have hm₁ := List.mem_filter.mp hq₁
    have hm₂ := List.mem_filter.mp hq₂
    have hqeq : q₂ = q₁ :=
      List.inj_on_of_nodup_map (allFiles_fst_nodup t hwf) hm₂.1 hm₁.1 hq
    rw [hqeq] at hm₂
    exact hne (ext_suffix_unique (default_extensions_dotfree ex₁ hex₁)
      (default_extensions_dotfree ex₂ hex₂)
      ((matchesExt_iff_suffix _ ex₁).mp hm₁.2) ((matchesExt_iff_suffix _ ex₂).mp hm₂.2))

theorem rowsOf_of_rmdirs : ∀ tr : List Event, (∀ e ∈ tr, ∃ p, e = Event.rmdir p) →
    rowsOf tr = []
  | [], _ => rfl
  | e :: tr, h => by
    rcases h e (List.mem_cons_self e tr) with ⟨p, rfl⟩
    rw [rowsOf_cons_rmdir]
    exact rowsOf_of_rmdirs tr (fun e' he' => h e' (List.mem_cons_of_mem _ he'))

theorem scanFile_dry_no_unlink (ac : Bool) (mname : String) (f : List String) (S : Nat)
    (T : Int) : ∀ (gens : List (String × DirTree)) (p : List String),
      Event.unlink p ∉ (scanFile ac true mname f S T gens).1
  | [], p, h => absurd h (List.not_mem_nil _)
  | (gname, t) :: rest, p, h => by
    rcases scanFile_event_shape ac true mname f S T ((gname, t) :: rest) _ h with ⟨g, hg, hc⟩
    rcases hc with hc | ⟨rw', hc⟩ | hc | hc
    · exact absurd hc (by simp)
    · exact absurd hc (by simp)
    · exact absurd hc (by simp)
    · rcases Event.unlink.inj hc with rfl
      revert h
      clear hc
      induction ((gname, t) :: rest) with
      | nil => exact fun h => absurd h (List.not_mem_nil _)
      | cons g0 gs ih =>
        intro h
        obtain ⟨n0, t0⟩ := g0
        cases hl : t0.lookupFile f with
        | none =>
          cases ac
          · rw [scanFile_none_false_eq true mname n0 f S T t0 gs hl] at h
            rcases List.mem_cons.mp h with hcc | h
            · exact absurd hcc (by simp)
            · exact ih h
          · rw [scanFile_none_true_eq true mname n0 f S T t0 gs hl] at h
            rcases List.mem_singleton.mp h with hcc
            exact absurd hcc (by simp)
        | some m =>
          by_cases hs : m.st_size = S
          · rw [scanFile_match_eq ac true mname n0 f S T t0 m gs hl hs] at h
            simp only [List.mem_cons, List.mem_append] at h
            rcases h with hcc | hcc | hcc | h
            · exact absurd hcc (by simp)
            · exact absurd hcc (by simp)
            · exact absurd hcc (by simp)
            · rcases h with hcc | h
              · simp at hcc
              · exact ih h
          · cases ac
            · rw [scanFile_mismatch_false_eq true mname n0 f S T t0 m gs hl hs] at h
              rcases List.mem_cons.mp h with hcc | h
              · exact absurd hcc (by simp)
              · exact ih h
            · rw [scanFile_mismatch_true_eq true mname n0 f S T t0 m gs hl hs] at h
              rcases List.mem_singleton.mp h with hcc
              exact absurd hcc (by simp)

theorem scanAll_dry_no_unlink (ac : Bool) (mname : String) :
    ∀ (cands : List (List String × FileMeta)) (gens : List (String × DirTree)) (p : List String),
      Event.unlink p ∉ (scanAll ac true mname cands gens).1
  | [], _, p, h => absurd h (List.not_mem_nil _)
  | (f, meta) :: fs, gens, p, h => by
    rcases List.mem_append.mp h with h | h
    · exact scanFile_dry_no_unlink ac mname f meta.st_size meta.st_ctime gens p h
    · exact scanAll_dry_no_unlink ac mname fs _ p h

/-- C6: dry-run fidelity — on the same starting root (with a well-formed
master tree), a dry run and a real run report the same freed-bytes total
and write the same reconstruction-log rows in the same order; the dry run
performs no unlink and no directory removal. -/
theorem C6_dry_run_fidelity (now now' : String) (root : List RootEntry) (ac : Bool)
    (r_d r_w : RunResult) (mname : String) (mtree : DirTree) (olds : List (String × DirTree))
    (hgens : checkDirs (genChildren root) = some ((mname, mtree) :: olds))
    (hwf : mtree.wfB = true)
    (hd : deduplicate now root true ac = .ok r_d)
    (hw : deduplicate now' root false ac = .ok r_w) :
    r_d.bytes_freed = r_w.bytes_freed ∧ rowsOf r_d.trace = rowsOf r_w.trace
    ∧ (∀ p, Event.unlink p ∉ r_d.trace) ∧ (∀ p, Event.rmdir p ∉ r_d.trace) := by
  rw [deduplicate_dry_eq now root ac mname mtree olds hgens] at hd
  injection hd with hd
  subst hd
  rw [deduplicate_real_eq now' root ac mname mtree olds hgens] at hw
  injection hw with hw
  subst hw
  have hfid := scanAll_fidelity ac true false mname (candidates mtree) olds olds
    (candidates_fst_nodup mtree hwf) (LookEq_refl _ olds)
  refine ⟨hfid.2, ?_, ?_, ?_⟩
  · show rowsOf (scanAll ac true mname (candidates mtree) olds).1 = rowsOf (_ ++ _)
    rw [rowsOf_append, hfid.1]
    have hrm : rowsOf (((((scanAll ac false mname (candidates mtree) olds).2.2).map
        (fun g => (g.1, g.2, delete_empty_folders g.2))).map
          (fun g => g.2.2.map (fun d => Event.rmdir (g.1 :: d)))).flatten) = [] := by
      refine rowsOf_of_rmdirs _ ?_
      intro e he
      rcases List.mem_flatten.mp he with ⟨l, hl, hel⟩
      rcases List.mem_map.mp hl with ⟨g2, _, rfl⟩
      rcases List.mem_map.mp hel with ⟨d, _, rfl⟩
      exact ⟨g2.1 :: d, rfl⟩
    rw [hrm, List.append_nil]
  · exact fun p => scanAll_dry_no_unlink ac mname (candidates mtree) olds p
  · intro p hp
    rcases scanAll_event_shape ac true mname (candidates mtree) olds _ hp with
      ⟨rw', habs⟩ | ⟨gn, _, q, hc⟩
    · exact absurd habs (by simp)
    · rcases hc with hc | hc | hc <;> exact absurd hc (by simp)

/-- Witness for C6: a concrete root on which the dry and the real run agree
on the freed-bytes total. -/
theorem C6_dry_run_fidelity_witness :
    runBytes (deduplicate "T"
        [⟨"2024", some (DirTree.mk [("a.jpg", ⟨5, 3⟩)] [])⟩,
         ⟨"2023", some (DirTree.mk [("a.jpg", ⟨5, 1⟩)] [])⟩] true true) =
      runBytes (deduplicate "U"
        [⟨"2024", some (DirTree.mk [("a.jpg", ⟨5, 3⟩)] [])⟩,
         ⟨"2023", some (DirTree.mk [("a.jpg", ⟨5, 1⟩)] [])⟩] false true) := by
  cases hd : deduplicate "T"
      [⟨"2024", some (DirTree.mk [("a.jpg", ⟨5, 3⟩)] [])⟩,
       ⟨"2023", some (DirTree.mk [("a.jpg", ⟨5, 1⟩)] [])⟩] true true with
  | error e =>
    have hok : (deduplicate "T"
        [⟨"2024", some (DirTree.mk [("a.jpg", ⟨5, 3⟩)] [])⟩,
         ⟨"2023", some (DirTree.mk [("a.jpg", ⟨5, 1⟩)] [])⟩] true true).isOk = true := by decide
    rw [hd] at hok
    simp [Except.isOk, Except.toBool] at hok
  | ok r_d =>
    cases hw : deduplicate "U"
        [⟨"2024", some (DirTree.mk [("a.jpg", ⟨5, 3⟩)] [])⟩,
         ⟨"2023", some (DirTree.mk [("a.jpg", ⟨5, 1⟩)] [])⟩] false true with
    | error e =>
      have hok : (deduplicate "U"
          [⟨"2024", some (DirTree.mk [("a.jpg", ⟨5, 3⟩)] [])⟩,
           ⟨"2023", some (DirTree.mk [("a.jpg", ⟨5, 1⟩)] [])⟩] false true).isOk = true := by
        decide
      rw [hw] at hok
      simp [Except.isOk, Except.toBool] at hok
    | ok r_w =>
      have hc := C6_dry_run_fidelity "T" "U"
        [⟨"2024", some (DirTree.mk [("a.jpg", ⟨5, 3⟩)] [])⟩,
         ⟨"2023", some (DirTree.mk [("a.jpg", ⟨5, 1⟩)] [])⟩] true r_d r_w
        "2024" (DirTree.mk [("a.jpg", ⟨5, 3⟩)] [])
        [("2023", DirTree.mk [("a.jpg", ⟨5, 1⟩)] [])] rfl rfl hd hw
      show r_d.bytes_freed = r_w.bytes_freed
      exact hc.1

theorem sameSnoc {p x : List String} {a b : String}
    (ha : (p ++ [a]) <+: x) (hb : (p ++ [b]) <+: x) : a = b := by
  have hab : (p ++ [a]) <+: (p ++ [b]) :=
    List.prefix_of_prefix_length_le ha hb (by simp)
  have he : p ++ [a] = p ++ [b] := hab.eq_of_length (by simp)
  have := List.append_cancel_left he
  simpa using this

theorem snoc_not_prefix_self (p : List String) (a : String) : ¬ (p ++ [a]) <+: p := by
  intro h
  have := h.length_le
  simp at this

theorem subsFileFree_iff : ∀ subs : List (String × DirTree),
    subsFileFree subs = true ↔ ∀ g ∈ subs, g.2.fileFree = true
  | [] => by simp [subsFileFree]
  | (n, t) :: rest => by
    rw [subsFileFree, Bool.and_eq_true, subsFileFree_iff rest]
    constructor
    · rintro ⟨h1, h2⟩ g hg
      rcases List.mem_cons.mp hg with rfl | hg
      · exact h1
      · exact h2 g hg
    · intro h
      exact ⟨h (n, t) (List.mem_cons_self _ _),
        fun g hg => h g (List.mem_cons_of_mem _ hg)⟩

mutual

theorem removedDirs_prefix : ∀ (t : DirTree) (path : List String) (x : List String),
    x ∈ removedDirs path t → path <+: x
  | .mk files subs, path, x, hx => by
    rw [removedDirs] at hx
    rcases List.mem_append.mp hx with hx | hx
    · rcases removedSubs_prefix subs path x hx with ⟨g, _, hg⟩
      exact (List.prefix_append path [g.1]).trans hg
    · by_cases hff : (DirTree.mk files subs).fileFree = true
      · rw [if_pos hff] at hx
        rw [List.mem_singleton.mp hx]
      · rw [if_neg hff] at hx
        exact absurd hx (List.not_mem_nil x)

theorem removedSubs_prefix : ∀ (subs : List (String × DirTree)) (path : List String)
    (x : List String), x ∈ removedSubs path subs → ∃ g ∈ subs, (path ++ [g.1]) <+: x
  | [], _, x, hx => absurd hx (List.not_mem_nil x)
  | (n, t) :: rest, path, x, hx => by
    rw [removedSubs] at hx
    rcases List.mem_append.mp hx with hx | hx
    · exact ⟨(n, t), List.mem_cons_self _ _, removedDirs_prefix t (path ++ [n]) x hx⟩
    · rcases removedSubs_prefix rest path x hx with ⟨g, hg, hgx⟩
      exact ⟨g, List.mem_cons_of_mem _ hg, hgx⟩

end

theorem self_not_mem_removedSubs (subs : List (String × DirTree)) (path : List String) :
    path ∉ removedSubs path subs := by
  intro hx
  rcases removedSubs_prefix subs path path hx with ⟨g, _, hg⟩
  exact snoc_not_prefix_self path g.1 hg

theorem self_mem_removedDirs_iff (t : DirTree) (path : List String) :
    path ∈ removedDirs path t ↔ t.fileFree = true := by
  obtain ⟨files, subs⟩ := t
  rw [removedDirs]
  constructor
  · intro hx
    rcases List.mem_append.mp hx with hx | hx
    · exact absurd hx (self_not_mem_removedSubs subs path)
    · by_cases hff : (DirTree.mk files subs).fileFree = true
      · exact hff
      · rw [if_neg hff] at hx
        exact absurd hx (List.not_mem_nil path)
  · intro hff
    rw [if_pos hff]
    exact List.mem_append.mpr (Or.inr (List.mem_singleton.mpr rfl))

theorem pair_unique {subs : List (String × DirTree)} (hnd : (subs.map (fun g => g.1)).Nodup)
    {s : String} {t₁ t₂ : DirTree} (h₁ : (s, t₁) ∈ subs) (h₂ : (s, t₂) ∈ subs) : t₁ = t₂ := by
  have := List.inj_on_of_nodup_map hnd h₁ h₂ rfl
  exact (Prod.mk.injEq _ _ _ _ |>.mp this).2

theorem mem_removedSubs_split : ∀ (subs : List (String × DirTree)) (path : List String)
    (s : String) (t_s : DirTree) (x : List String),
    (subs.map (fun g => g.1)).Nodup → (s, t_s) ∈ subs → (path ++ [s]) <+: x →
    (x ∈ removedSubs path subs ↔ x ∈ removedDirs (path ++ [s]) t_s)
  | [], _, s, t_s, x, _, hmem, _ => absurd hmem (List.not_mem_nil _)
  | (n, t) :: rest, path, s, t_s, x, hnd, hmem, hpre => by
    rw [List.map_cons] at hnd
    rw [removedSubs]
    by_cases hns : n = s
    · subst hns
      have hts : t = t_s := by
        rcases List.mem_cons.mp hmem with he | hmem'
        · exact ((Prod.mk.injEq _ _ _ _).mp he.symm).2
        · exact absurd (List.mem_map_of_mem (fun g => g.1) hmem')
            (by simpa using (List.nodup_cons.mp hnd).1)
      subst hts
      rw [List.mem_append]
      constructor
      · rintro (hx | hx)
        · exact hx
        · exfalso
          rcases removedSubs_prefix rest path x hx with ⟨g, hg, hgx⟩
          have hgs := sameSnoc hgx hpre
          have hsnot : n ∉ rest.map (fun g => g.1) := by
            simpa using (List.nodup_cons.mp hnd).1
          exact hsnot (hgs ▸ List.mem_map_of_mem (fun g => g.1) hg)
      · exact fun hx => Or.inl hx
    · have hmem' : (s, t_s) ∈ rest := by
        rcases List.mem_cons.mp hmem with he | hmem'
        · exact absurd ((Prod.mk.injEq _ _ _ _).mp he).1.symm hns
        · exact hmem'
      rw [List.mem_append]
      constructor
      · rintro (hx | hx)
        · exfalso
          have := removedDirs_prefix t (path ++ [n]) x hx
          exact hns (sameSnoc this hpre)
        · exact (mem_removedSubs_split rest path s t_s x (List.nodup_cons.mp hnd).2
            hmem' hpre).mp hx
      · intro hx
        exact Or.inr ((mem_removedSubs_split rest path s t_s x (List.nodup_cons.mp hnd).2
          hmem' hpre).mpr hx)

theorem isEmpty_map {α β : Type} (f : α → β) : ∀ l : List α, (l.map f).isEmpty = l.isEmpty
  | [] => rfl
  | _ :: _ => rfl

mutual

theorem walkPost_foldl (t : DirTree) : ∀ (path : List String) (acc : List (List String)),
    t.wfB = true → (∀ x ∈ acc, ¬ StrictUnder path x) →
    (t.walkPost path).foldl reclaimStep acc = acc ++ removedDirs path t := by
  obtain ⟨files, subs⟩ := t
  intro path acc hwf hacc
  obtain ⟨hcomb, hswf⟩ := wfB_parts hwf
  have hndsubs : (subs.map (fun g => g.1)).Nodup := hcomb.of_append_right
  rw [DirTree.walkPost, List.foldl_append]
  have hsubsacc : ∀ x ∈ acc, ∀ g ∈ subs, ¬ (path ++ [g.1]) <+: x := by
    intro x hx g _ hpre
    refine hacc x hx ⟨(List.prefix_append path [g.1]).trans hpre, ?_⟩
    intro he
    subst he
    exact snoc_not_prefix_self x g.1 hpre
  rw [walkPostSubs_foldl subs path acc hndsubs hswf hsubsacc]
  show reclaimStep (acc ++ removedSubs path subs)
    (path, subs.map (fun q => q.1), files.map (fun q => q.1)) = _
  have hmemiff : ∀ s t_s, (s, t_s) ∈ subs →
      ((path ++ [s]) ∈ acc ++ removedSubs path subs ↔ t_s.fileFree = true) := by
    intro s t_s hmem
    rw [List.mem_append]
    constructor
    · rintro (hx | hx)
      · exfalso
        refine hacc _ hx ⟨List.prefix_append path [s], ?_⟩
        intro he
        exact absurd he (by simp)
      · rw [mem_removedSubs_split subs path s t_s _ hndsubs hmem List.prefix_rfl] at hx
        exact (self_mem_removedDirs_iff t_s (path ++ [s])).mp hx
    · intro hff
      refine Or.inr ?_
      rw [mem_removedSubs_split subs path s t_s _ hndsubs hmem List.prefix_rfl]
      exact (self_mem_removedDirs_iff t_s (path ++ [s])).mpr hff
  have hcond : ((files.map (fun q => q.1)).isEmpty &&
      (subs.map (fun q => q.1)).all
        (fun s => decide ((path ++ [s]) ∈ acc ++ removedSubs path subs))) =
      (DirTree.mk files subs).fileFree := by
    rw [isEmpty_map, DirTree.fileFree]
    by_cases hfe : files.isEmpty
    · rw [hfe, Bool.true_and, Bool.true_and]
      by_cases hsf : subsFileFree subs = true
      · rw [hsf]
        rw [List.all_eq_true]
        intro s hs
        rcases List.mem_map.mp hs with ⟨g, hg, rfl⟩
        rw [decide_eq_true_iff]
        exact (hmemiff g.1 g.2 (by simpa using hg)).mpr
          ((subsFileFree_iff subs).mp hsf g hg)
      · have : (subs.map (fun q => q.1)).all
            (fun s => decide ((path ++ [s]) ∈ acc ++ removedSubs path subs)) = false := by
          rw [Bool.eq_false_iff]
          intro hall
          refine hsf ((subsFileFree_iff subs).mpr ?_)
          intro g hg
          have := List.all_eq_true.mp hall g.1 (List.mem_map_of_mem _ hg)
          rw [decide_eq_true_iff] at this
          exact (hmemiff g.1 g.2 (by simpa using hg)).mp this
        rw [this]
        exact (Bool.eq_false_iff.mpr hsf).symm
    · have hfe' : files.isEmpty = false := Bool.eq_false_iff.mpr hfe
      rw [hfe', Bool.false_and, Bool.false_and]
  rw [reclaimStep]
  show (if ((files.map (fun q => q.1)).isEmpty &&
      (subs.map (fun q => q.1)).all
        (fun s => decide ((path ++ [s]) ∈ acc ++ removedSubs path subs))) = true
    then (acc ++ removedSubs path subs) ++ [path] else acc ++ removedSubs path subs) = _
  rw [hcond, removedDirs]
  by_cases hff : (DirTree.mk files subs).fileFree = true
  · rw [if_pos hff, if_pos hff, List.append_assoc]
  · rw [if_neg hff, if_neg hff, List.append_nil]

theorem walkPostSubs_foldl : ∀ (subs : List (String × DirTree)) (path : List String)
    (acc : List (List String)),
    (subs.map (fun g => g.1)).Nodup → subsWfB subs = true →
    (∀ x ∈ acc, ∀ g ∈ subs, ¬ (path ++ [g.1]) <+: x) →
    (walkPostSubs path subs).foldl reclaimStep acc = acc ++ removedSubs path subs
  | [], path, acc, _, _, _ => by
    rw [walkPostSubs, removedSubs, List.foldl_nil, List.append_nil]
  | (n, t) :: rest, path, acc, hnd, hwf, hacc => by
    rw [List.map_cons] at hnd
    rw [subsWfB, Bool.and_eq_true] at hwf
    rw [walkPostSubs, List.foldl_append]
    have hacc1 : ∀ x ∈ acc, ¬ StrictUnder (path ++ [n]) x := by
      intro x hx hsu
      exact hacc x hx (n, t) (List.mem_cons_self _ _) hsu.1
    rw [walkPost_foldl t (path ++ [n]) acc hwf.1 hacc1]
    have hacc2 : ∀ x ∈ acc ++ removedDirs (path ++ [n]) t, ∀ g ∈ rest,
        ¬ (path ++ [g.1]) <+: x := by
      intro x hx g hg hpre
      rcases List.mem_append.mp hx with hx | hx
      · exact hacc x hx g (List.mem_cons_of_mem _ hg) hpre
      · have hpn := removedDirs_prefix t (path ++ [n]) x hx
        have := sameSnoc hpre hpn
        have hnot : n ∉ rest.map (fun g => g.1) := by
          simpa using (List.nodup_cons.mp hnd).1
        exact hnot (this ▸ List.mem_map_of_mem (fun g => g.1) hg)
    rw [walkPostSubs_foldl rest path _ (List.nodup_cons.mp hnd).2 hwf.2 hacc2]
    rw [removedSubs, List.append_assoc]

end

theorem delete_empty_folders_eq (t : DirTree) (hwf : t.wfB = true) :
    delete_empty_folders t = removedDirs [] t := by
  rw [delete_empty_folders,
    walkPost_foldl t [] [] hwf (fun x hx => absurd hx (List.not_mem_nil x))]
  rfl

theorem subsWfB_iff : ∀ subs : List (String × DirTree),
    subsWfB subs = true ↔ ∀ g ∈ subs, g.2.wfB = true
  | [] => by simp [subsWfB]
  | (n, t) :: rest => by
    rw [subsWfB, Bool.and_eq_true, subsWfB_iff rest]
    constructor
    · rintro ⟨h1, h2⟩ g hg
      rcases List.mem_cons.mp hg with rfl | hg
      · exact h1
      · exact h2 g hg
    · intro h
      exact ⟨h (n, t) (List.mem_cons_self _ _),
        fun g hg => h g (List.mem_cons_of_mem _ hg)⟩

theorem fileFree_iff (files : List (String × FileMeta)) (subs : List (String × DirTree)) :
    (DirTree.mk files subs).fileFree = true ↔
      files = [] ∧ ∀ g ∈ subs, g.2.fileFree = true := by
  rw [DirTree.fileFree, Bool.and_eq_true, List.isEmpty_iff, subsFileFree_iff]

mutual

theorem subtreeAt_append : ∀ (a : List String) (t : DirTree) (b : List String),
    t.subtreeAt (a ++ b) =
      match t.subtreeAt a with
      | none => none
      | some s => s.subtreeAt b
  | [], t, b => by
    obtain ⟨files, subs⟩ := t
    rfl
  | n :: a', .mk files subs, b => by
    show subtreeAtSubs n (a' ++ b) subs =
      match subtreeAtSubs n a' subs with
      | none => none
      | some s => s.subtreeAt b
    exact subtreeAtSubs_append n a' subs b

theorem subtreeAtSubs_append : ∀ (n : String) (a' : List String)
    (subs : List (String × DirTree)) (b : List String),
    subtreeAtSubs n (a' ++ b) subs =
      match subtreeAtSubs n a' subs with
      | none => none
      | some s => s.subtreeAt b
  | n, a', [], b => rfl
  | n, a', (m, t) :: others, b => by
    by_cases hm : (m == n) = true
    · show (if (m == n) = true then t.subtreeAt (a' ++ b) else _) = _
      rw [if_pos hm]
      show t.subtreeAt (a' ++ b) =
        match (if (m == n) = true then t.subtreeAt a' else subtreeAtSubs n a' others) with
        | none => none
        | some s => s.subtreeAt b
      rw [if_pos hm]
      exact subtreeAt_append a' t b
    · show (if (m == n) = true then t.subtreeAt (a' ++ b) else subtreeAtSubs n (a' ++ b) others) = _
      rw [if_neg hm]
      show subtreeAtSubs n (a' ++ b) others =
        match (if (m == n) = true then t.subtreeAt a' else subtreeAtSubs n a' others) with
        | none => none
        | some s => s.subtreeAt b
      rw [if_neg hm]
      exact subtreeAtSubs_append n a' others b

end

theorem subtreeAt_singleton_of_mem {subs : List (String × DirTree)}
    (hnd : (subs.map (fun g => g.1)).Nodup) {n : String} {t' : DirTree}
    (hmem : (n, t') ∈ subs) (files : List (String × FileMeta)) :
    (DirTree.mk files subs).subtreeAt [n] = some t' := by
  show subtreeAtSubs n [] subs = some t'
  induction subs with
  | nil => exact absurd hmem (List.not_mem_nil _)
  | cons g rest ih =>
    obtain ⟨m, t0⟩ := g
    rw [List.map_cons] at hnd
    by_cases hm : (m == n) = true
    · show (if (m == n) = true then t0.subtreeAt [] else subtreeAtSubs n [] rest) = some t'
      rw [if_pos hm]
      have hmn : m = n := by simpa using hm
      subst hmn
      have ht : t0 = t' := by
        rcases List.mem_cons.mp hmem with he | hmem'
        · exact (((Prod.mk.injEq _ _ _ _).mp he.symm).2)
        · exact absurd (List.mem_map_of_mem (fun g => g.1) hmem')
            (by simpa using (List.nodup_cons.mp hnd).1)
      rw [ht]
      obtain ⟨f2, s2⟩ := t'
      rfl
    · show (if (m == n) = true then t0.subtreeAt [] else subtreeAtSubs n [] rest) = some t'
      rw [if_neg hm]
      have hmem' : (n, t') ∈ rest := by
        rcases List.mem_cons.mp hmem with he | hmem'
        · exact absurd (by simpa using ((Prod.mk.injEq _ _ _ _).mp he).1.symm) hm
        · exact hmem'
      exact ih (List.nodup_cons.mp hnd).2 hmem'

mutual

theorem subtreeAt_wf : ∀ (t : DirTree) (d : List String) (sub : DirTree),
    t.wfB = true → t.subtreeAt d = some sub → sub.wfB = true
  | t, [], sub, hwf, hs => by
    obtain ⟨files, subs⟩ := t
    rw [DirTree.subtreeAt] at hs
    rw [← Option.some_inj.mp hs]
    exact hwf
  | .mk files subs, n :: rest, sub, hwf, hs => by
    rw [DirTree.subtreeAt] at hs
    exact subtreeAtSubs_wf subs n rest sub ((wfB_parts hwf).2) hs

theorem subtreeAtSubs_wf : ∀ (subs : List (String × DirTree)) (n : String)
    (rest : List String) (sub : DirTree),
    subsWfB subs = true → subtreeAtSubs n rest subs = some sub → sub.wfB = true
  | [], n, rest, sub, _, hs => by
    rw [subtreeAtSubs] at hs
    exact absurd hs (by simp)
  | (m, t) :: others, n, rest, sub, hwf, hs => by
    rw [subsWfB, Bool.and_eq_true] at hwf
    rw [subtreeAtSubs] at hs
    by_cases hm : (m == n) = true
    · rw [if_pos hm] at hs
      exact subtreeAt_wf t rest sub hwf.1 hs
    · rw [if_neg hm] at hs
      exact subtreeAtSubs_wf others n rest sub hwf.2 hs

end

mutual

theorem mem_removedDirs_iff : ∀ (t : DirTree) (p d : List String), t.wfB = true →
    (d ∈ removedDirs p t ↔
      ∃ rel sub, d = p ++ rel ∧ t.subtreeAt rel = some sub ∧ sub.fileFree = true)
  | .mk files subs, p, d, hwf => by
    obtain ⟨hcomb, hswf⟩ := wfB_parts hwf
    rw [removedDirs, List.mem_append]
    constructor
    · rintro (hx | hx)
      · rcases (mem_removedSubs_iff subs p d hcomb.of_append_right hswf).mp hx with
          ⟨n, rel, sub, hd, hsubs, hff⟩
        exact ⟨n :: rel, sub, by simpa using hd, hsubs, hff⟩
      · by_cases hff : (DirTree.mk files subs).fileFree = true
        · rw [if_pos hff] at hx
          rw [List.mem_singleton.mp hx]
          exact ⟨[], DirTree.mk files subs, by simp, rfl, hff⟩
        · rw [if_neg hff] at hx
          exact absurd hx (List.not_mem_nil d)
    · rintro ⟨rel, sub, hd, hsubs, hff⟩
      cases rel with
      | nil =>
        rw [DirTree.subtreeAt] at hsubs
        have hsub : DirTree.mk files subs = sub := Option.some_inj.mp hsubs
        refine Or.inr ?_
        rw [if_pos (hsub ▸ hff)]
        simp [hd]
      | cons n rel' =>
        refine Or.inl ?_
        refine (mem_removedSubs_iff subs p d hcomb.of_append_right hswf).mpr ?_
        exact ⟨n, rel', sub, hd, hsubs, hff⟩

theorem mem_removedSubs_iff : ∀ (subs : List (String × DirTree)) (p d : List String),
    (subs.map (fun g => g.1)).Nodup → subsWfB subs = true →
    (d ∈ removedSubs p subs ↔
      ∃ n rel sub, d = p ++ n :: rel ∧ subtreeAtSubs n rel subs = some sub ∧
        sub.fileFree = true)
  | [], p, d, _, _ => by
    rw [removedSubs]
    constructor
    · intro hx
      exact absurd hx (List.not_mem_nil d)
    · rintro ⟨n, rel, sub, _, hsubs, _⟩
      rw [subtreeAtSubs] at hsubs
      exact absurd hsubs (by simp)
  | (m, t) :: rest, p, d, hnd, hwf => by
    rw [List.map_cons] at hnd
    rw [subsWfB, Bool.and_eq_true] at hwf
    rw [removedSubs, List.mem_append]
    constructor
    · rintro (hx | hx)
      · rcases (mem_removedDirs_iff t (p ++ [m]) d hwf.1).mp hx with ⟨rel, sub, hd, hsubs, hff⟩
        refine ⟨m, rel, sub, by simpa [List.append_assoc] using hd, ?_, hff⟩
        show (if (m == m) = true then t.subtreeAt rel else subtreeAtSubs m rel rest) = some sub
        rw [if_pos (by simp)]
        exact hsubs
      · rcases (mem_removedSubs_iff rest p d (List.nodup_cons.mp hnd).2 hwf.2).mp hx with
          ⟨n, rel, sub, hd, hsubs, hff⟩
        have hmn : (m == n) = false := by
          rcases removedSubs_prefix rest p d hx with ⟨g, hg, hgpre⟩
          have hdn : (p ++ [n]) <+: d := by
            rw [hd, show p ++ n :: rel = (p ++ [n]) ++ rel by simp]
            exact List.prefix_append _ _
          have := sameSnoc hgpre hdn
          have hnin : m ∉ rest.map (fun g => g.1) := by
            simpa using (List.nodup_cons.mp hnd).1
          rw [Bool.eq_false_iff]
          intro hme
          have hme' : m = n := by simpa using hme
          exact hnin (by rw [hme', ← this]; exact List.mem_map_of_mem (fun g => g.1) hg)
        refine ⟨n, rel, sub, hd, ?_, hff⟩
        show (if (m == n) = true then t.subtreeAt rel else subtreeAtSubs n rel rest) = some sub
        rw [if_neg (by simp [hmn])]
        exact hsubs
    · rintro ⟨n, rel, sub, hd, hsubs, hff⟩
      rw [show subtreeAtSubs n rel ((m, t) :: rest) =
        (if (m == n) = true then t.subtreeAt rel else subtreeAtSubs n rel rest) from rfl] at hsubs
      by_cases hm : (m == n) = true
      · rw [if_pos hm] at hsubs
        refine Or.inl ?_
        refine (mem_removedDirs_iff t (p ++ [m]) d hwf.1).mpr ?_
        refine ⟨rel, sub, ?_, hsubs, hff⟩
        have hmn : m = n := by simpa using hm
        rw [hd, hmn]
        simp
      · rw [if_neg hm] at hsubs
        refine Or.inr ?_
        exact (mem_removedSubs_iff rest p d (List.nodup_cons.mp hnd).2 hwf.2).mpr
          ⟨n, rel, sub, hd, hsubs, hff⟩

end

theorem mem_delete_empty_folders_iff (t : DirTree) (hwf : t.wfB = true) (d : List String) :
    d ∈ delete_empty_folders t ↔
      ∃ sub, t.subtreeAt d = some sub ∧ sub.fileFree = true := by
  rw [delete_empty_folders_eq t hwf, mem_removedDirs_iff t [] d hwf]
  constructor
  · rintro ⟨rel, sub, hd, hsubs, hff⟩
    simp only [List.nil_append] at hd
    subst hd
    exact ⟨sub, hsubs, hff⟩
  · rintro ⟨sub, hsubs, hff⟩
    exact ⟨d, sub, by simp, hsubs, hff⟩

mutual

theorem fileFree_allFiles : ∀ t : DirTree, t.fileFree = true → t.allFiles = []
  | .mk files subs, hff => by
    rcases (fileFree_iff files subs).mp hff with ⟨hfe, hsf⟩
    show files.map (fun q => ([q.1], q.2)) ++ subsFiles subs = []
    rw [hfe, subsFileFree_allFiles subs ((subsFileFree_iff subs).mpr hsf)]
    rfl

theorem subsFileFree_allFiles : ∀ subs : List (String × DirTree),
    subsFileFree subs = true → subsFiles subs = []
  | [], _ => rfl
  | (n, t) :: rest, hff => by
    rw [subsFileFree, Bool.and_eq_true] at hff
    show (DirTree.allFiles t).map (fun q => (n :: q.1, q.2)) ++ subsFiles rest = []
    rw [fileFree_allFiles t hff.1, subsFileFree_allFiles rest hff.2]
    rfl

end

theorem subtreeAtSubs_of_mem : ∀ {subs : List (String × DirTree)},
    (subs.map (fun g => g.1)).Nodup → ∀ {n : String} {t' : DirTree}, (n, t') ∈ subs →
    ∀ rest : List String, subtreeAtSubs n rest subs = t'.subtreeAt rest
  | [], _, n, t', hmem, _ => absurd hmem (List.not_mem_nil _)
  | (m, t0) :: others, hnd, n, t', hmem, rest => by
    rw [List.map_cons] at hnd
    by_cases hm : (m == n) = true
    · show (if (m == n) = true then t0.subtreeAt rest else subtreeAtSubs n rest others) = _
      rw [if_pos hm]
      have hmn : m = n := by simpa using hm
      subst hmn
      have ht : t0 = t' := by
        rcases List.mem_cons.mp hmem with he | hmem'
        · exact (((Prod.mk.injEq _ _ _ _).mp he.symm).2)
        · exact absurd (List.mem_map_of_mem (fun g => g.1) hmem')
            (by simpa using (List.nodup_cons.mp hnd).1)
      rw [ht]
    · show (if (m == n) = true then t0.subtreeAt rest else subtreeAtSubs n rest others) = _
      rw [if_neg hm]
      have hmem' : (n, t') ∈ others := by
        rcases List.mem_cons.mp hmem with he | hmem'
        · exact absurd (by simpa using ((Prod.mk.injEq _ _ _ _).mp he).1.symm) hm
        · exact hmem'
      exact subtreeAtSubs_of_mem (List.nodup_cons.mp hnd).2 hmem' rest

theorem file_below_not_fileFree : ∀ (d : List String) (t : DirTree)
    (q : List String × FileMeta), t.wfB = true → q ∈ t.allFiles → d <+: q.1.dropLast →
    ∀ sub, t.subtreeAt d = some sub → sub.fileFree = false
  | [], t, q, hwf, hq, _, sub, hsub => by
    obtain ⟨files, subs⟩ := t
    rw [DirTree.subtreeAt] at hsub
    rw [← Option.some_inj.mp hsub]
    rw [Bool.eq_false_iff]
    intro hff
    rw [fileFree_allFiles _ hff] at hq
    exact List.not_mem_nil q hq
  | n :: d', .mk files subs, q, hwf, hq, hpre, sub, hsub => by
    obtain ⟨hcomb, hswf⟩ := wfB_parts hwf
    rcases List.mem_append.mp hq with hq | hq
    · rcases List.mem_map.mp hq with ⟨q0, _, rfl⟩
      simp at hpre
    · rcases subsFiles_shape subs q hq with ⟨n₀, t₀, ptail, hmem, hqp, hin⟩
      have hpt : ptail ≠ [] := allFiles_ne_nil t₀ (ptail, q.2) hin
      obtain ⟨pt1, pts, rfl⟩ : ∃ a l, ptail = a :: l := by
        cases ptail with
        | nil => exact absurd rfl hpt
        | cons a l => exact ⟨a, l, rfl⟩
      rw [hqp] at hpre
      rw [List.dropLast_cons₂] at hpre
      rcases List.cons_prefix_cons.mp hpre with ⟨rfl, hpre'⟩
      rw [DirTree.subtreeAt] at hsub
      rw [subtreeAtSubs_of_mem hcomb.of_append_right hmem d'] at hsub
      exact file_below_not_fileFree d' t₀ (pt1 :: pts, q.2)
        ((subsWfB_iff subs).mp hswf (n, t₀) hmem) hin hpre' sub hsub

theorem append_split {α : Type} : ∀ {l₁ : List α} {l₂ A B : List α} {d : α},
    l₁ ++ l₂ = A ++ d :: B →
    (∃ B₁, l₁ = A ++ d :: B₁ ∧ B = B₁ ++ l₂) ∨ (∃ A₂, l₂ = A₂ ++ d :: B ∧ A = l₁ ++ A₂)
  | [], l₂, A, B, d, h => Or.inr ⟨A, by simpa using h, by simp⟩
  | x :: l₁, l₂, A, B, d, h => by
    cases A with
    | nil =>
      simp only [List.nil_append, List.cons_append] at h ⊢
      rcases List.cons.inj h with ⟨rfl, h2⟩
      exact Or.inl ⟨l₁, rfl, h2.symm⟩
    | cons a A' =>
      simp only [List.cons_append] at h
      rcases List.cons.inj h with ⟨rfl, h2⟩
      rcases append_split h2 with ⟨B₁, hb1, hb2⟩ | ⟨A₂, ha1, ha2⟩
      · exact Or.inl ⟨B₁, by rw [hb1]; rfl, hb2⟩
      · exact Or.inr ⟨A₂, ha1, by rw [ha2]; rfl⟩

mutual

theorem removedDirs_order : ∀ (t : DirTree) (p : List String) (A : List (List String))
    (d : List String) (B : List (List String)), t.wfB = true →
    removedDirs p t = A ++ d :: B → ∀ y ∈ B, ¬ StrictUnder d y
  | .mk files subs, p, A, d, B, hwf, h, y, hy, hsu => by
    obtain ⟨hcomb, hswf⟩ := wfB_parts hwf
    rw [removedDirs] at h
    rcases append_split h with ⟨B₁, hb1, hb2⟩ | ⟨A₂, ha1, ha2⟩
    · subst hb2
      rcases List.mem_append.mp hy with hy | hy
      · exact removedDirs_order_subs subs p A d B₁ hcomb.of_append_right hswf hb1 y hy hsu
      · have hdmem : d ∈ removedSubs p subs := by
          rw [hb1]
          exact List.mem_append.mpr (Or.inr (List.mem_cons_self _ _))
        rcases removedSubs_prefix subs p d hdmem with ⟨g, _, hgpre⟩
        have hyp : y = p := by
          by_cases hff : (DirTree.mk files subs).fileFree = true
          · rw [if_pos hff] at hy
            exact List.mem_singleton.mp hy
          · rw [if_neg hff] at hy
            exact absurd hy (List.not_mem_nil y)
        rw [hyp] at hsu
        have h1 : (p ++ [g.1]).length ≤ d.length := hgpre.length_le
        have h2 : d.length ≤ p.length := hsu.1.length_le
        simp at h1
        omega
    · by_cases hff : (DirTree.mk files subs).fileFree = true
      · rw [if_pos hff] at ha1
        cases A₂ with
        | nil =>
          rcases List.cons.inj ha1 with ⟨-, hB⟩
          rw [← hB] at hy
          exact absurd hy (List.not_mem_nil y)
        | cons a A₃ =>
          rcases List.cons.inj ha1 with ⟨-, hB⟩
          have := congrArg List.length hB
          simp at this
          omega
      · rw [if_neg hff] at ha1
        exact absurd ha1.symm (by simp)

theorem removedDirs_order_subs : ∀ (subs : List (String × DirTree)) (p : List String)
    (A : List (List String)) (d : List String) (B : List (List String)),
    (subs.map (fun g => g.1)).Nodup → subsWfB subs = true →
    removedSubs p subs = A ++ d :: B → ∀ y ∈ B, ¬ StrictUnder d y
  | [], p, A, d, B, _, _, h, y, hy, _ => by
    rw [removedSubs] at h
    exact absurd h.symm (by simp)
  | (n, t) :: rest, p, A, d, B, hnd, hwf, h, y, hy, hsu => by
    rw [List.map_cons] at hnd
    rw [subsWfB, Bool.and_eq_true] at hwf
    rw [removedSubs] at h
    rcases append_split h with ⟨B₁, hb1, hb2⟩ | ⟨A₂, ha1, ha2⟩
    · subst hb2
      rcases List.mem_append.mp hy with hy | hy
      · exact removedDirs_order t (p ++ [n]) A d B₁ hwf.1 hb1 y hy hsu
      · have hdmem : d ∈ removedDirs (p ++ [n]) t := by
          rw [hb1]
          exact List.mem_append.mpr (Or.inr (List.mem_cons_self _ _))
        have hdn := removedDirs_prefix t (p ++ [n]) d hdmem
        rcases removedSubs_prefix rest p y hy with ⟨g, hg, hgpre⟩
        have hyn : (p ++ [n]) <+: y := hdn.trans hsu.1
        have := sameSnoc hgpre hyn
        have hnin : n ∉ rest.map (fun g => g.1) := by
          simpa using (List.nodup_cons.mp hnd).1
        exact hnin (this ▸ List.mem_map_of_mem (fun g => g.1) hg)
    · exact removedDirs_order_subs rest p A₂ d B (List.nodup_cons.mp hnd).2 hwf.2 ha1 y hy hsu

end

/-- C8: the empty-directory reclaimer, on a well-formed tree: (1) it removes
a directory iff the directory directly contains no files and each of its
direct subdirectories is removed by the same pass; (2) everything it removes
is a directory of the tree; (3) every ancestor directory of any file is
retained; (4) at the moment a directory is removed (position in the removal
order), it has no files and all of its direct subdirectories were removed
strictly earlier, so it is empty on disk. -/
theorem C8_empty_directory_reclamation (t : DirTree) (hwf : t.wfB = true) :
    (∀ d sub, t.subtreeAt d = some sub →
       (d ∈ delete_empty_folders t ↔
         sub.files = [] ∧ ∀ g ∈ sub.subs, d ++ [g.1] ∈ delete_empty_folders t))
    ∧ (∀ d ∈ delete_empty_folders t, ∃ sub, t.subtreeAt d = some sub)
    ∧ (∀ q ∈ t.allFiles, ∀ d, d <+: q.1.dropLast → d ∉ delete_empty_folders t)
    ∧ (∀ R₁ d R₂, delete_empty_folders t = R₁ ++ d :: R₂ →
       ∃ sub, t.subtreeAt d = some sub ∧ sub.files = [] ∧
         ∀ g ∈ sub.subs, d ++ [g.1] ∈ R₁) := by
  have key : ∀ d sub, t.subtreeAt d = some sub →
      (d ∈ delete_empty_folders t ↔
        sub.files = [] ∧ ∀ g ∈ sub.subs, d ++ [g.1] ∈ delete_empty_folders t) := by
    intro d sub hsub
    have hwfsub : sub.wfB = true := subtreeAt_wf t d sub hwf hsub
    obtain ⟨sfiles, ssubs⟩ := sub
    have hsnd : (ssubs.map (fun g => g.1)).Nodup := (wfB_parts hwfsub).1.of_append_right
    have hstep : ∀ g ∈ ssubs, t.subtreeAt (d ++ [g.1]) = some g.2 := by
      intro g hg
      rw [subtreeAt_append d t [g.1], hsub]
      obtain ⟨gn, gt⟩ := g
      exact subtreeAt_singleton_of_mem hsnd hg sfiles
    rw [mem_delete_empty_folders_iff t hwf d]
    constructor
    · rintro ⟨sub', hsub', hff⟩
      rw [hsub] at hsub'
      rcases Option.some_inj.mp hsub' with rfl
      rcases (fileFree_iff sfiles ssubs).mp hff with ⟨hfe, hsf⟩
      refine ⟨hfe, ?_⟩
      intro g hg
      rw [mem_delete_empty_folders_iff t hwf (d ++ [g.1])]
      exact ⟨g.2, hstep g hg, hsf g hg⟩
    · rintro ⟨hfe, hall⟩
      refine ⟨DirTree.mk sfiles ssubs, hsub, ?_⟩
      rw [fileFree_iff]
      refine ⟨hfe, ?_⟩
      intro g hg
      have := hall g hg
      rw [mem_delete_empty_folders_iff t hwf (d ++ [g.1])] at this
      rcases this with ⟨sub₂, hsub₂, hff₂⟩
      rw [hstep g hg] at hsub₂
      rcases Option.some_inj.mp hsub₂ with rfl
      exact hff₂
  refine ⟨key, ?_, ?_, ?_⟩
  · intro d hd
    rcases (mem_delete_empty_folders_iff t hwf d).mp hd with ⟨sub, hsub, -⟩
    exact ⟨sub, hsub⟩
  · intro q hq d hpre hd
    rcases (mem_delete_empty_folders_iff t hwf d).mp hd with ⟨sub, hsub, hff⟩
    have := file_below_not_fileFree d t q hwf hq hpre sub hsub
    rw [this] at hff
    exact absurd hff (by simp)
  · intro R₁ d R₂ hsplit
    have hd : d ∈ delete_empty_folders t := by
      rw [hsplit]
      exact List.mem_append.mpr (Or.inr (List.mem_cons_self _ _))
    rcases (mem_delete_empty_folders_iff t hwf d).mp hd with ⟨sub, hsub, hff⟩
    rcases (key d sub hsub).mp hd with ⟨hfe, hall⟩
    refine ⟨sub, hsub, hfe, ?_⟩
    intro g hg
    have hmem := hall g hg
    rw [hsplit] at hmem
    rcases List.mem_append.mp hmem with hmem | hmem
    · exact hmem
    · rcases List.mem_cons.mp hmem with he | hmem
      · exfalso
        have := congrArg List.length he
        simp at this
      · exfalso
        have horder : ¬ StrictUnder d (d ++ [g.1]) := by
          have := delete_empty_folders_eq t hwf
          rw [this] at hsplit
          exact removedDirs_order t [] R₁ d R₂ hwf hsplit (d ++ [g.1]) hmem
        refine horder ⟨List.prefix_append d [g.1], ?_⟩
        intro he2
        exact absurd he2 (by simp)

/-- Witness for C8: the characterisation applied to a concrete two-level
tree where an empty subdirectory is removed but the root (holding a file)
survives. -/
theorem C8_empty_directory_reclamation_witness :
    (DirTree.mk [("a.jpg", ⟨5, 3⟩)] [("empty", DirTree.mk [] [])]).wfB = true ∧
    ["empty"] ∈ delete_empty_folders
      (DirTree.mk [("a.jpg", ⟨5, 3⟩)] [("empty", DirTree.mk [] [])]) ∧
    [] ∉ delete_empty_folders
      (DirTree.mk [("a.jpg", ⟨5, 3⟩)] [("empty", DirTree.mk [] [])]) := by
  have hwf : (DirTree.mk [("a.jpg", ⟨5, 3⟩)] [("empty", DirTree.mk [] [])]).wfB = true := by
    decide
  have hc := C8_empty_directory_reclamation
    (DirTree.mk [("a.jpg", ⟨5, 3⟩)] [("empty", DirTree.mk [] [])]) hwf
  refine ⟨hwf, ?_, ?_⟩
  · rw [hc.1 ["empty"] (DirTree.mk [] []) rfl]
    exact ⟨rfl, by intro g hg; exact absurd hg (List.not_mem_nil g)⟩
  · intro hmem
    rcases (hc.1 [] (DirTree.mk [("a.jpg", ⟨5, 3⟩)] [("empty", DirTree.mk [] [])]) rfl).mp
      hmem with ⟨hfe, -⟩
    exact absurd hfe (by decide)

mutual

theorem removedDirs_all : ∀ (t : DirTree) (p : List String), t.fileFree = true →
    removedDirs p t = (t.walkPost p).map (fun fr => fr.1)
  | .mk files subs, p, hff => by
    rw [removedDirs, if_pos hff, DirTree.walkPost, List.map_append]
    rw [removedSubs_all subs p ((subsFileFree_iff subs).mpr ((fileFree_iff files subs).mp hff).2)]
    rfl

theorem removedSubs_all : ∀ (subs : List (String × DirTree)) (p : List String),
    subsFileFree subs = true → removedSubs p subs = (walkPostSubs p subs).map (fun fr => fr.1)
  | [], _, _ => rfl
  | (n, t) :: rest, p, hff => by
    rw [subsFileFree, Bool.and_eq_true] at hff
    rw [removedSubs, walkPostSubs, List.map_append,
      removedDirs_all t (p ++ [n]) hff.1, removedSubs_all rest p hff.2]

end

/-- C10 (implicit): in a real-mode run, when an older generation's post-scan
tree holds no file anywhere, the reclamation pass removes every directory of
that tree including the generation root itself, the generation is absent
from the resulting working-root contents, and hence from the generation
enumeration of any subsequent run. -/
theorem C10_empty_generation_vanishes (now : String) (root : List RootEntry) (ac : Bool)
    (r : RunResult) (mname : String) (mtree : DirTree) (olds : List (String × DirTree))
    (gname : String) (t' : DirTree)
    (hnodup : (root.map (fun e => e.name)).Nodup)
    (hgens : checkDirs (genChildren root) = some ((mname, mtree) :: olds))
    (h : deduplicate now root false ac = .ok r)
    (hpost : (gname, t') ∈ r.postOlds)
    (hwf : t'.wfB = true)
    (hff : t'.fileFree = true) :
    delete_empty_folders t' = (t'.walkPost []).map (fun fr => fr.1)
    ∧ [] ∈ delete_empty_folders t'
    ∧ (∀ e ∈ r.entries, e.name ≠ gname)
    ∧ (∀ e ∈ genChildren r.entries, e.name ≠ gname) := by
  have hall : delete_empty_folders t' = (t'.walkPost []).map (fun fr => fr.1) := by
    rw [delete_empty_folders_eq t' hwf, removedDirs_all t' [] hff]
  have hroot : [] ∈ delete_empty_folders t' := by
    rw [delete_empty_folders_eq t' hwf]
    exact (self_mem_removedDirs_iff t' []).mpr hff
  have hch : genChildren root =
      (⟨mname, some mtree⟩ : RootEntry) :: olds.map (fun g => (⟨g.1, some g.2⟩ : RootEntry)) := by
    simpa using checkDirs_some_eq hgens
  have hnames : (mname :: olds.map (fun g => g.1)).Nodup := by
    have h1 := genChildren_names_nodup root hnodup
    rw [hch] at h1
    simpa [List.map_map, Function.comp] using h1
  rw [deduplicate_real_eq now root ac mname mtree olds hgens] at h
  injection h with h
  subst h
  have hpost' : (gname, t') ∈ (scanAll ac false mname (candidates mtree) olds).2.2 := hpost
  have hgn : gname ∈ olds.map (fun g => g.1) := by
    rw [← scanAll_sameNames ac false mname (candidates mtree) olds]
    exact List.mem_map_of_mem _ hpost'
  have hscannd : (((scanAll ac false mname (candidates mtree) olds).2.2).map
      (fun g => g.1)).Nodup := by
    rw [scanAll_sameNames ac false mname (candidates mtree) olds]
    exact (List.nodup_cons.mp hnames).2
  have hgenentry : ∃ t₀, (⟨gname, some t₀⟩ : RootEntry) ∈ genChildren root := by
    rcases List.mem_map.mp hgn with ⟨g₀, hg₀, rfl⟩
    refine ⟨g₀.2, ?_⟩
    rw [hch]
    exact List.mem_cons_of_mem _ (List.mem_map.mpr ⟨g₀, hg₀, rfl⟩)
  rcases hgenentry with ⟨t₀, hge⟩
  have hge_root : (⟨gname, some t₀⟩ : RootEntry) ∈ root :=
    (sortDesc_perm root).subset (List.mem_filter.mp hge).1
  have hge_keep : keepEntry (⟨gname, some t₀⟩ : RootEntry) = true :=
    (List.mem_filter.mp hge).2
  have hentries : ∀ e ∈ (List.filter (fun e => !keepEntry e) root ++
      ({ name := mname, content := some mtree } : RootEntry) ::
        List.filterMap
          (fun g => if ([] : List String) ∈ g.2.2 then none
            else some ({ name := g.1, content := some (DirTree.prune g.2.2 [] g.2.1) } : RootEntry))
          (List.map (fun g => (g.1, g.2, delete_empty_folders g.2))
            (scanAll ac false mname (candidates mtree) olds).2.2)) ++
      [({ name := logFileName now false, content := none } : RootEntry)],
      e.name ≠ gname := by
    intro e he hename
    rcases List.mem_append.mp he with he | he
    · rcases List.mem_append.mp he with he | he
      · have he1 := List.mem_filter.mp he
        have heq : e = (⟨gname, some t₀⟩ : RootEntry) :=
          List.inj_on_of_nodup_map hnodup he1.1 hge_root (by rw [hename])
        rw [heq] at he1
        rw [hge_keep] at he1
        exact absurd he1.2 (by simp)
      · rcases List.mem_cons.mp he with rfl | he
        · have hmn : mname ∉ olds.map (fun g => g.1) := (List.nodup_cons.mp hnames).1
          have hmg : mname = gname := hename
          rw [hmg] at hmn
          exact hmn hgn
        · rcases List.mem_filterMap.mp he with ⟨g3, hg3, hfe⟩
          rcases List.mem_map.mp hg3 with ⟨g0, hg0, rfl⟩
          by_cases hin : ([] : List String) ∈ delete_empty_folders g0.2
          · rw [if_pos hin] at hfe
            exact absurd hfe (by simp)
          · rw [if_neg hin] at hfe
            have he2 := Option.some_inj.mp hfe
            have hname0 : g0.1 = gname := by
              rw [← hename, ← he2]
            have hg0' : (gname, g0.2) ∈ (scanAll ac false mname (candidates mtree) olds).2.2 := by
              rw [← hname0]
              simpa using hg0
            have hgt : g0.2 = t' := pair_unique hscannd hg0' hpost'
            rw [hgt] at hin
            exact hin hroot
    · rcases List.mem_singleton.mp he with rfl
      have hlog : strEndsWith (logFileName now false) ".log.csv" = true := by
        rw [logFileName]
        exact strEndsWith_append _ _
      have hgkeep : strEndsWith gname ".log.csv" = false := by
        rw [keepEntry] at hge_keep
        simpa using hge_keep
      have hlogname : logFileName now false = gname := hename
      rw [hlogname, hgkeep] at hlog
      exact absurd hlog (by simp)
  refine ⟨hall, hroot, ?_, ?_⟩
  · intro e he
    exact hentries e he
  · intro e he
    refine hentries e ?_
    exact (sortDesc_perm _).subset (List.mem_filter.mp he).1

/-- Witness for C10: in a concrete real run the emptied generation `2023`
has its root directory removed and disappears from the resulting root. -/
theorem C10_empty_generation_vanishes_witness :
    [] ∈ delete_empty_folders (DirTree.mk [] []) ∧
    "2023" ∉ (runEntries (deduplicate "T"
      [⟨"2024", some (DirTree.mk [("a.jpg", ⟨7, 10⟩), ("b.jpg", ⟨1000, 11⟩)] [])⟩,
       ⟨"2023", some (DirTree.mk [("b.jpg", ⟨1000, 5⟩)] [])⟩,
       ⟨"2022", some (DirTree.mk [("a.jpg", ⟨7, 1⟩)] [])⟩] false true)).map
      (fun e => e.name) := by
  cases h : deduplicate "T"
      [⟨"2024", some (DirTree.mk [("a.jpg", ⟨7, 10⟩), ("b.jpg", ⟨1000, 11⟩)] [])⟩,
       ⟨"2023", some (DirTree.mk [("b.jpg", ⟨1000, 5⟩)] [])⟩,
       ⟨"2022", some (DirTree.mk [("a.jpg", ⟨7, 1⟩)] [])⟩] false true with
  | error e =>
    have hok : (deduplicate "T"
        [⟨"2024", some (DirTree.mk [("a.jpg", ⟨7, 10⟩), ("b.jpg", ⟨1000, 11⟩)] [])⟩,
         ⟨"2023", some (DirTree.mk [("b.jpg", ⟨1000, 5⟩)] [])⟩,
         ⟨"2022", some (DirTree.mk [("a.jpg", ⟨7, 1⟩)] [])⟩] false true).isOk = true := by
      decide
    rw [h] at hok
    simp [Except.isOk, Except.toBool] at hok
  | ok r =>
    have hpost_eq : runPostOlds (deduplicate "T"
        [⟨"2024", some (DirTree.mk [("a.jpg", ⟨7, 10⟩), ("b.jpg", ⟨1000, 11⟩)] [])⟩,
         ⟨"2023", some (DirTree.mk [("b.jpg", ⟨1000, 5⟩)] [])⟩,
         ⟨"2022", some (DirTree.mk [("a.jpg", ⟨7, 1⟩)] [])⟩] false true) =
        [("2023", DirTree.mk [] []), ("2022", DirTree.mk [("a.jpg", ⟨7, 1⟩)] [])] := rfl
    rw [h] at hpost_eq
    have hpost : ("2023", DirTree.mk [] []) ∈ r.postOlds := by
      rw [show runPostOlds (Except.ok r) = r.postOlds from rfl] at hpost_eq
      rw [hpost_eq]
      exact List.mem_cons_self _ _
    have hc := C10_empty_generation_vanishes "T"
      [⟨"2024", some (DirTree.mk [("a.jpg", ⟨7, 10⟩), ("b.jpg", ⟨1000, 11⟩)] [])⟩,
       ⟨"2023", some (DirTree.mk [("b.jpg", ⟨1000, 5⟩)] [])⟩,
       ⟨"2022", some (DirTree.mk [("a.jpg", ⟨7, 1⟩)] [])⟩] true r
      "2024" (DirTree.mk [("a.jpg", ⟨7, 10⟩), ("b.jpg", ⟨1000, 11⟩)] [])
      [("2023", DirTree.mk [("b.jpg", ⟨1000, 5⟩)] []),
       ("2022", DirTree.mk [("a.jpg", ⟨7, 1⟩)] [])]
      "2023" (DirTree.mk [] []) (by decide) rfl h hpost rfl rfl
    refine ⟨hc.2.1, ?_⟩
    intro hmem
    rcases List.mem_map.mp hmem with ⟨e, he, hname⟩
    exact hc.2.2.1 e he hname

/-- Counterexample to C5 as stated: on `exRootA` the first real run
(continuity on) removes generation `2023` entirely, after which a second
real run still frees 7 bytes and writes one new log row (the duplicate
`2022/a.jpg` had been shielded by the continuity break at `2023`). -/
theorem C5_idempotence_counterexample :
    (deduplicate "T1" exRootA false true).isOk = true ∧
    (deduplicate "T2" (runEntries (deduplicate "T1" exRootA false true)) false true).isOk = true ∧
    runBytes (deduplicate "T2" (runEntries (deduplicate "T1" exRootA false true)) false true) = 7 ∧
    (runRows (deduplicate "T2" (runEntries (deduplicate "T1" exRootA false true))
      false true)).length = 1 := by
  refine ⟨by decide, by decide, by decide, by decide⟩

theorem Degrade_refl (t : DirTree) : Degrade t t := fun _ => Or.inl rfl

theorem Degrade_trans {a b c : DirTree} (h1 : Degrade a b) (h2 : Degrade b c) : Degrade a c := by
  intro f
  rcases h2 f with h | h
  · rcases h1 f with h' | h'
    · exact Or.inl (h.trans h')
    · exact Or.inr (h.trans h')
  · exact Or.inr h

theorem Degrade_delete (t : DirTree) (f : List String) : Degrade t (t.deleteFile f) := by
  intro f'
  by_cases hf : f' = f
  · subst hf
    exact Or.inr (deleteFile_lookup_self t f')
  · exact Or.inl (deleteFile_lookup_other t f f' hf)

theorem GensDeg_refl (gens : List (String × DirTree)) : GensDeg gens gens :=
  List.forall₂_same.mpr (fun _ _ => ⟨rfl, Degrade_refl _⟩)

theorem GensDeg_trans : ∀ {a b c : List (String × DirTree)},
    GensDeg a b → GensDeg b c → GensDeg a c := by
  intro a b c h1
  induction h1 generalizing c with
  | nil =>
    intro h2
    cases h2
    exact List.Forall₂.nil
  | cons hab htail ih =>
    intro h2
    cases h2 with
    | cons hbc htail' =>
      exact List.Forall₂.cons ⟨hab.1.trans hbc.1, Degrade_trans hab.2 hbc.2⟩ (ih htail')

theorem scanFile_degrade (ac dry : Bool) (mname : String) (f : List String) (S : Nat) (T : Int) :
    ∀ gens : List (String × DirTree),
      GensDeg gens (scanFile ac dry mname f S T gens).2.2
  | [] => List.Forall₂.nil
  | (gname, t) :: rest => by
    have ih := scanFile_degrade ac dry mname f S T rest
    cases hl : t.lookupFile f with
    | none =>
      cases ac
      · rw [scanFile_none_false_eq dry mname gname f S T t rest hl]
        exact List.Forall₂.cons ⟨rfl, Degrade_refl t⟩ ih
      · rw [scanFile_none_true_eq dry mname gname f S T t rest hl]
        exact GensDeg_refl _
    | some m =>
      by_cases hs : m.st_size = S
      · rw [scanFile_match_eq ac dry mname gname f S T t m rest hl hs]
        refine List.Forall₂.cons ⟨rfl, ?_⟩ ih
        cases dry
        · exact Degrade_delete t f
        · exact Degrade_refl t
      · cases ac
        · rw [scanFile_mismatch_false_eq dry mname gname f S T t m rest hl hs]
          exact List.Forall₂.cons ⟨rfl, Degrade_refl t⟩ ih
        · rw [scanFile_mismatch_true_eq dry mname gname f S T t m rest hl hs]
          exact GensDeg_refl _

theorem scanAll_degrade (ac dry : Bool) (mname : String) :
    ∀ (cands : List (List String × FileMeta)) (gens : List (String × DirTree)),
      GensDeg gens (scanAll ac dry mname cands gens).2.2
  | [], gens => GensDeg_refl gens
  | (f, meta) :: fs, gens => by
    show GensDeg gens
      (scanAll ac dry mname fs (scanFile ac dry mname f meta.st_size meta.st_ctime gens).2.2).2.2
    exact GensDeg_trans (scanFile_degrade ac dry mname f meta.st_size meta.st_ctime gens)
      (scanAll_degrade ac dry mname fs _)

theorem matchFail_degrade {S : Nat} {f : List String} {g g' : String × DirTree}
    (hd : Degrade g.2 g'.2) (h : matchFail S f g) : matchFail S f g' := by
  rcases hd f with he | he
  · rcases h with h | ⟨m, hm, hs⟩
    · exact Or.inl (he.trans h)
    · exact Or.inr ⟨m, he.trans hm, hs⟩
  · exact Or.inl he

theorem allFail_degrade {S : Nat} {f : List String} :
    ∀ {gens gens' : List (String × DirTree)}, GensDeg gens gens' →
      allFail S f gens → allFail S f gens' := by
  intro gens gens' hd
  induction hd with
  | nil =>
    intro _ g hg
    exact absurd hg (List.not_mem_nil g)
  | cons hab htail ih =>
    intro h g' hg'
    rcases List.mem_cons.mp hg' with rfl | hg'
    · exact matchFail_degrade hab.2 (h _ (List.mem_cons_self _ _))
    · exact ih (fun g hg => h g (List.mem_cons_of_mem _ hg)) g' hg'

theorem firstFail_degrade {S : Nat} {f : List String} :
    ∀ {gens gens' : List (String × DirTree)}, GensDeg gens gens' →
      firstFail S f gens → firstFail S f gens' := by
  intro gens gens' hd h
  cases hd with
  | nil => exact True.intro
  | cons hab htail => exact matchFail_degrade hab.2 h

theorem scanFile_post_false (mname : String) (f : List String) (S : Nat) (T : Int) :
    ∀ gens : List (String × DirTree),
      allFail S f (scanFile false false mname f S T gens).2.2
  | [] => fun g hg => absurd hg (List.not_mem_nil g)
  | (gname, t) :: rest => by
    have ih := scanFile_post_false mname f S T rest
    cases hl : t.lookupFile f with
    | none =>
      rw [scanFile_none_false_eq false mname gname f S T t rest hl]
      intro g hg
      rcases List.mem_cons.mp hg with rfl | hg
      · exact Or.inl hl
      · exact ih g hg
    | some m =>
      by_cases hs : m.st_size = S
      · rw [scanFile_match_eq false false mname gname f S T t m rest hl hs]
        intro g hg
        rcases List.mem_cons.mp hg with rfl | hg
        · exact Or.inl (deleteFile_lookup_self t f)
        · exact ih g hg
      · rw [scanFile_mismatch_false_eq false mname gname f S T t m rest hl hs]
        intro g hg
        rcases List.mem_cons.mp hg with rfl | hg
        · exact Or.inr ⟨m, hl, hs⟩
        · exact ih g hg

theorem scanFile_post_true (mname : String) (f : List String) (S : Nat) (T : Int) :
    ∀ gens : List (String × DirTree),
      firstFail S f (scanFile true false mname f S T gens).2.2
  | [] => True.intro
  | (gname, t) :: rest => by
    cases hl : t.lookupFile f with
    | none =>
      rw [scanFile_none_true_eq false mname gname f S T t rest hl]
      exact Or.inl hl
    | some m =>
      by_cases hs : m.st_size = S
      · rw [scanFile_match_eq true false mname gname f S T t m rest hl hs]
        exact Or.inl (deleteFile_lookup_self t f)
      · rw [scanFile_mismatch_true_eq false mname gname f S T t m rest hl hs]
        exact Or.inr ⟨m, hl, hs⟩

theorem scanAll_post_false (mname : String) :
    ∀ (cands : List (List String × FileMeta)) (gens : List (String × DirTree))
      (f : List String) (meta : FileMeta), (f, meta) ∈ cands →
      allFail meta.st_size f (scanAll false false mname cands gens).2.2
  | [], _, _, _, h => absurd h (List.not_mem_nil _)
  | (f₀, m₀) :: fs, gens, f, meta, h => by
    show allFail meta.st_size f
      (scanAll false false mname fs
        (scanFile false false mname f₀ m₀.st_size m₀.st_ctime gens).2.2).2.2
    rcases List.mem_cons.mp h with he | h
    · injection he with h1 h2
      subst h1
      subst h2
      exact allFail_degrade (scanAll_degrade false false mname fs _)
        (scanFile_post_false mname f meta.st_size meta.st_ctime gens)
    · exact scanAll_post_false mname fs _ f meta h

theorem scanAll_post_true (mname : String) :
    ∀ (cands : List (List String × FileMeta)) (gens : List (String × DirTree))
      (f : List String) (meta : FileMeta), (f, meta) ∈ cands →
      firstFail meta.st_size f (scanAll true false mname cands gens).2.2
  | [], _, _, _, h => absurd h (List.not_mem_nil _)
  | (f₀, m₀) :: fs, gens, f, meta, h => by
    show firstFail meta.st_size f
      (scanAll true false mname fs
        (scanFile true false mname f₀ m₀.st_size m₀.st_ctime gens).2.2).2.2
    rcases List.mem_cons.mp h with he | h
    · injection he with h1 h2
      subst h1
      subst h2
      exact firstFail_degrade (scanAll_degrade true false mname fs _)
        (scanFile_post_true mname f meta.st_size meta.st_ctime gens)
    · exact scanAll_post_true mname fs _ f meta h

theorem scanFile_zero_false (dry : Bool) (mname : String) (f : List String) (S : Nat) (T : Int) :
    ∀ gens : List (String × DirTree), allFail S f gens →
      rowsOf (scanFile false dry mname f S T gens).1 = [] ∧
      (scanFile false dry mname f S T gens).2.1 = 0 ∧
      (scanFile false dry mname f S T gens).2.2 = gens
  | [], _ => ⟨rfl, rfl, rfl⟩
  | (gname, t) :: rest, h => by
    have hh : matchFail S f (gname, t) := h (gname, t) (List.mem_cons_self _ _)
    have ih := scanFile_zero_false dry mname f S T rest
      (fun g hg => h g (List.mem_cons_of_mem _ hg))
    rcases hh with hl | ⟨m, hl, hs⟩
    · rw [scanFile_none_false_eq dry mname gname f S T t rest hl]
      refine ⟨?_, ih.2.1, ?_⟩
      · rw [rowsOf_cons_probe, ih.1]
      · rw [ih.2.2]
    · rw [scanFile_mismatch_false_eq dry mname gname f S T t m rest hl hs]
      refine ⟨?_, ih.2.1, ?_⟩
      · rw [rowsOf_cons_probe, ih.1]
      · rw [ih.2.2]

theorem scanFile_zero_true (dry : Bool) (mname : String) (f : List String) (S : Nat) (T : Int)
    (gens : List (String × DirTree)) (h : firstFail S f gens) :
    rowsOf (scanFile true dry mname f S T gens).1 = [] ∧
    (scanFile true dry mname f S T gens).2.1 = 0 ∧
    (scanFile true dry mname f S T gens).2.2 = gens := by
  cases gens with
  | nil => exact ⟨rfl, rfl, rfl⟩
  | cons g rest =>
    obtain ⟨gname, t⟩ := g
    have h' : matchFail S f (gname, t) := h
    rcases h' with hl | ⟨m, hl, hs⟩
    · rw [scanFile_none_true_eq dry mname gname f S T t rest hl]
      exact ⟨rfl, rfl, rfl⟩
    · rw [scanFile_mismatch_true_eq dry mname gname f S T t m rest hl hs]
      exact ⟨rfl, rfl, rfl⟩

theorem scanAll_zero_false (dry : Bool) (mname : String) :
    ∀ (cands : List (List String × FileMeta)) (gens : List (String × DirTree)),
      (∀ q ∈ cands, allFail q.2.st_size q.1 gens) →
      rowsOf (scanAll false dry mname cands gens).1 = [] ∧
      (scanAll false dry mname cands gens).2.1 = 0 ∧
      (scanAll false dry mname cands gens).2.2 = gens
  | [], gens, _ => ⟨rfl, rfl, rfl⟩
  | (f, meta) :: fs, gens, h => by
    have h0 := scanFile_zero_false dry mname f meta.st_size meta.st_ctime gens
      (h (f, meta) (List.mem_cons_self _ _))
    have ih := scanAll_zero_false dry mname fs
      (scanFile false dry mname f meta.st_size meta.st_ctime gens).2.2
      (by
        rw [h0.2.2]
        exact fun q hq => h q (List.mem_cons_of_mem _ hq))
    show rowsOf ((scanFile false dry mname f meta.st_size meta.st_ctime gens).1 ++
        (scanAll false dry mname fs
          (scanFile false dry mname f meta.st_size meta.st_ctime gens).2.2).1) = [] ∧
      (scanFile false dry mname f meta.st_size meta.st_ctime gens).2.1 +
        (scanAll false dry mname fs
          (scanFile false dry mname f meta.st_size meta.st_ctime gens).2.2).2.1 = 0 ∧
      (scanAll false dry mname fs
        (scanFile false dry mname f meta.st_size meta.st_ctime gens).2.2).2.2 = gens
    refine ⟨?_, ?_, ?_⟩
    · rw [rowsOf_append, h0.1, ih.1]
      rfl
    · rw [h0.2.1, ih.2.1]
    · rw [ih.2.2, h0.2.2]

theorem scanAll_zero_true (dry : Bool) (mname : String) :
    ∀ (cands : List (List String × FileMeta)) (gens : List (String × DirTree)),
      (∀ q ∈ cands, firstFail q.2.st_size q.1 gens) →
      rowsOf (scanAll true dry mname cands gens).1 = [] ∧
      (scanAll true dry mname cands gens).2.1 = 0 ∧
      (scanAll true dry mname cands gens).2.2 = gens
  | [], gens, _ => ⟨rfl, rfl, rfl⟩
  | (f, meta) :: fs, gens, h => by
    have h0 := scanFile_zero_true dry mname f meta.st_size meta.st_ctime gens
      (h (f, meta) (List.mem_cons_self _ _))
    have ih := scanAll_zero_true dry mname fs
      (scanFile true dry mname f meta.st_size meta.st_ctime gens).2.2
      (by
        rw [h0.2.2]
        exact fun q hq => h q (List.mem_cons_of_mem _ hq))
    show rowsOf ((scanFile true dry mname f meta.st_size meta.st_ctime gens).1 ++
        (scanAll true dry mname fs
          (scanFile true dry mname f meta.st_size meta.st_ctime gens).2.2).1) = [] ∧
      (scanFile true dry mname f meta.st_size meta.st_ctime gens).2.1 +
        (scanAll true dry mname fs
          (scanFile true dry mname f meta.st_size meta.st_ctime gens).2.2).2.1 = 0 ∧
      (scanAll true dry mname fs
        (scanFile true dry mname f meta.st_size meta.st_ctime gens).2.2).2.2 = gens
    refine ⟨?_, ?_, ?_⟩
    · rw [rowsOf_append, h0.1, ih.1]
      rfl
    · rw [h0.2.1, ih.2.1]
    · rw [ih.2.2, h0.2.2]

theorem pruneSubs_lookup_none_removed : ∀ (subs : List (String × DirTree))
    (R : List (List String)) (p : List String) (n : String) (rest : List String),
    (p ++ [n]) ∈ R → lookupInSubs n rest (pruneSubs R p subs) = none
  | [], _, _, _, _, _ => rfl
  | (m₀, t₀) :: others, R, p, n, rest, h => by
    by_cases hrm : (p ++ [m₀]) ∈ R
    · have hps : pruneSubs R p ((m₀, t₀) :: others) = pruneSubs R p others := by
        show (if (p ++ [m₀]) ∈ R then _ else _) = _
        rw [if_pos hrm]
      rw [hps]
      exact pruneSubs_lookup_none_removed others R p n rest h
    · have hmn : m₀ ≠ n := by
        intro he
        rw [he] at hrm
        exact hrm h
      have hps : pruneSubs R p ((m₀, t₀) :: others) =
          (m₀, t₀.prune R (p ++ [m₀])) :: pruneSubs R p others := by
        show (if (p ++ [m₀]) ∈ R then _ else _) = _
        rw [if_neg hrm]
      rw [hps]
      show (if (m₀ == n) = true then (t₀.prune R (p ++ [m₀])).lookupFile rest
        else lookupInSubs n rest (pruneSubs R p others)) = none
      rw [if_neg (by simp [hmn])]
      exact pruneSubs_lookup_none_removed others R p n rest h

mutual

theorem prune_lookup_some : ∀ (t : DirTree) (R : List (List String)) (p : List String)
    (f : List String) (m : FileMeta),
    (t.prune R p).lookupFile f = some m → t.lookupFile f = some m
  | .mk files subs, R, p, f, m, h => by
    match f with
    | [] => exact absurd h (by simp [DirTree.prune, DirTree.lookupFile])
    | [n] => exact h
    | n :: r :: rest =>
      show lookupInSubs n (r :: rest) subs = some m
      have h' : lookupInSubs n (r :: rest) (pruneSubs R p subs) = some m := h
      exact pruneSubs_lookup_some subs R p n (r :: rest) m h'

theorem pruneSubs_lookup_some : ∀ (subs : List (String × DirTree)) (R : List (List String))
    (p : List String) (n : String) (rest : List String) (m : FileMeta),
    lookupInSubs n rest (pruneSubs R p subs) = some m → lookupInSubs n rest subs = some m
  | [], R, p, n, rest, m, h => absurd h (by simp [pruneSubs, lookupInSubs])
  | (m₀, t₀) :: others, R, p, n, rest, m, h => by
    by_cases hrm : (p ++ [m₀]) ∈ R
    · have hps : pruneSubs R p ((m₀, t₀) :: others) = pruneSubs R p others := by
        show (if (p ++ [m₀]) ∈ R then _ else _) = _
        rw [if_pos hrm]
      rw [hps] at h
      by_cases hm : m₀ = n
      · subst hm
        rw [pruneSubs_lookup_none_removed others R p m₀ rest hrm] at h
        exact absurd h (by simp)
      · show (if (m₀ == n) = true then t₀.lookupFile rest
          else lookupInSubs n rest others) = some m
        rw [if_neg (by simp [hm])]
        exact pruneSubs_lookup_some others R p n rest m h
    · have hps : pruneSubs R p ((m₀, t₀) :: others) =
          (m₀, t₀.prune R (p ++ [m₀])) :: pruneSubs R p others := by
        show (if (p ++ [m₀]) ∈ R then _ else _) = _
        rw [if_neg hrm]
      rw [hps] at h
      by_cases hm : (m₀ == n) = true
      · have h' : (t₀.prune R (p ++ [m₀])).lookupFile rest = some m := by
          have hstep : lookupInSubs n rest ((m₀, t₀.prune R (p ++ [m₀])) :: pruneSubs R p others) =
              (t₀.prune R (p ++ [m₀])).lookupFile rest := by
            show (if (m₀ == n) = true then _ else _) = _
            rw [if_pos hm]
          rw [hstep] at h
          exact h
        show (if (m₀ == n) = true then t₀.lookupFile rest
          else lookupInSubs n rest others) = some m
        rw [if_pos hm]
        exact prune_lookup_some t₀ R (p ++ [m₀]) rest m h'
      · have h' : lookupInSubs n rest (pruneSubs R p others) = some m := by
          have hstep : lookupInSubs n rest ((m₀, t₀.prune R (p ++ [m₀])) :: pruneSubs R p others) =
              lookupInSubs n rest (pruneSubs R p others) := by
            show (if (m₀ == n) = true then _ else _) = _
            rw [if_neg hm]
          rw [hstep] at h
          exact h
        show (if (m₀ == n) = true then t₀.lookupFile rest
          else lookupInSubs n rest others) = some m
        rw [if_neg hm]
        exact pruneSubs_lookup_some others R p n rest m h'

end

theorem prune_degrade (t : DirTree) (R : List (List String)) (p : List String) :
    Degrade t (t.prune R p) := by
  intro f
  cases hl : (t.prune R p).lookupFile f with
  | none => exact Or.inr rfl
  | some m => exact Or.inl (prune_lookup_some t R p f m hl).symm

theorem filter_not_filter {α : Type} (p : α → Bool) : ∀ l : List α,
    (l.filter (fun a => !(p a))).filter p = []
  | [] => rfl
  | a :: l => by
    cases h : p a with
    | false => simp [List.filter_cons, h, filter_not_filter p l]
    | true => simp [List.filter_cons, h, filter_not_filter p l]

theorem filterMap_map_sublist {α β γ : Type} (F : α → Option β) (h : β → γ) (nm : α → γ)
    (hF : ∀ a b, F a = some b → h b = nm a) :
    ∀ l : List α, List.Sublist ((l.filterMap F).map h) (l.map nm)
  | [] => List.nil_sublist []
  | a :: l => by
    cases hFa : F a with
    | none =>
      rw [show (a :: l).filterMap F = l.filterMap F by rw [List.filterMap_cons, hFa]]
      exact (filterMap_map_sublist F h nm hF l).cons (nm a)
    | some b =>
      rw [show (a :: l).filterMap F = b :: l.filterMap F by rw [List.filterMap_cons, hFa]]
      rw [List.map_cons, List.map_cons, hF a b hFa]
      exact (filterMap_map_sublist F h nm hF l).cons₂ (nm a)

theorem genChildren_post_run (root : List RootEntry) (mname : String) (mtree : DirTree)
    (olds : List (String × DirTree)) (lname : String)
    (hnodup : (root.map (fun e => e.name)).Nodup)
    (hgens : checkDirs (genChildren root) = some ((mname, mtree) :: olds))
    (hlog : strEndsWith lname ".log.csv" = true)
    (survivors : List RootEntry)
    (hsnames : List.Sublist (survivors.map (fun e => e.name)) (olds.map (fun g => g.1))) :
    genChildren ((root.filter (fun e => !(keepEntry e)) ++
        (⟨mname, some mtree⟩ : RootEntry) :: survivors) ++ [(⟨lname, none⟩ : RootEntry)]) =
      (⟨mname, some mtree⟩ : RootEntry) :: survivors := by
  have hch : genChildren root =
      (⟨mname, some mtree⟩ : RootEntry) :: olds.map (fun g => (⟨g.1, some g.2⟩ : RootEntry)) := by
    simpa using checkDirs_some_eq hgens
  have hkeepCh : ∀ e ∈ genChildren root, keepEntry e = true :=
    fun e he => (List.mem_filter.mp he).2
  have hnames : (mname :: olds.map (fun g => g.1)).Nodup := by
    have h1 := genChildren_names_nodup root hnodup
    rw [hch] at h1
    simpa [List.map_map, Function.comp] using h1
  have hdesc : DescBy (genChildren root) := (sortDesc_sorted root).filter keepEntry
  have hdescN : (mname :: olds.map (fun g => g.1)).Pairwise
      (fun a b => nameLe b a = true) := by
    have h1 : ((genChildren root).map (fun e => e.name)).Pairwise
        (fun a b => nameLe b a = true) := List.pairwise_map.mpr hdesc
    rw [hch] at h1
    simpa [List.map_map, Function.comp] using h1
  have hsub : List.Sublist (mname :: survivors.map (fun e => e.name))
      (mname :: olds.map (fun g => g.1)) := hsnames.cons₂ mname
  have htnNodup : (mname :: survivors.map (fun e => e.name)).Nodup := hnames.sublist hsub
  have htnDesc : (mname :: survivors.map (fun e => e.name)).Pairwise
      (fun a b => nameLe b a = true) := hdescN.sublist hsub
  have hkeepM : keepEntry (⟨mname, some mtree⟩ : RootEntry) = true := by
    apply hkeepCh
    rw [hch]
    exact List.mem_cons_self _ _
  have hkeepS : ∀ e ∈ survivors, keepEntry e = true := by
    intro e he
    have hmem : e.name ∈ olds.map (fun g => g.1) :=
      hsnames.subset (List.mem_map_of_mem _ he)
    rcases List.mem_map.mp hmem with ⟨g, hg, hname⟩
    have hk : keepEntry (⟨g.1, some g.2⟩ : RootEntry) = true := by
      apply hkeepCh
      rw [hch]
      exact List.mem_cons_of_mem _ (List.mem_map.mpr ⟨g, hg, rfl⟩)
    rw [keepEntry] at hk ⊢
    rw [← hname]
    exact hk
  have hfE : ((root.filter (fun e => !(keepEntry e)) ++
      (⟨mname, some mtree⟩ : RootEntry) :: survivors) ++ [(⟨lname, none⟩ : RootEntry)]).filter keepEntry =
      (⟨mname, some mtree⟩ : RootEntry) :: survivors := by
    rw [List.filter_append, List.filter_append, filter_not_filter keepEntry root]
    have h1 : List.filter keepEntry [(⟨lname, none⟩ : RootEntry)] = [] := by
      have hke : keepEntry (⟨lname, none⟩ : RootEntry) = false := by
        rw [keepEntry]
        simp [hlog]
      simp [List.filter_cons, hke]
    rw [h1]
    rw [List.filter_cons_of_pos hkeepM, List.filter_eq_self.mpr hkeepS]
    simp
  have hperm : (genChildren ((root.filter (fun e => !(keepEntry e)) ++
      (⟨mname, some mtree⟩ : RootEntry) :: survivors) ++ [(⟨lname, none⟩ : RootEntry)])).Perm
      ((⟨mname, some mtree⟩ : RootEntry) :: survivors) := by
    have hp1 : (genChildren ((root.filter (fun e => !(keepEntry e)) ++
        (⟨mname, some mtree⟩ : RootEntry) :: survivors) ++
        [(⟨lname, none⟩ : RootEntry)])).Perm
        (((root.filter (fun e => !(keepEntry e)) ++
          (⟨mname, some mtree⟩ : RootEntry) :: survivors) ++
          [(⟨lname, none⟩ : RootEntry)]).filter keepEntry) := by
      rw [genChildren]
      exact (sortDesc_perm _).filter keepEntry
    rw [hfE] at hp1
    exact hp1
  haveI : IsAntisymm RootEntry (fun a b => nameLe b.name a.name = true ∧ a.name ≠ b.name) :=
    ⟨fun a b hab hba => absurd (nameLe_antisymm hba.1 hab.1) hab.2⟩
  have hsorted₂ : ((⟨mname, some mtree⟩ : RootEntry) :: survivors).Pairwise
      (fun a b => nameLe b.name a.name = true ∧ a.name ≠ b.name) := by
    have hP : (((⟨mname, some mtree⟩ : RootEntry) :: survivors).map
        (fun e => e.name)).Pairwise (fun a b => nameLe b a = true ∧ a ≠ b) :=
      htnDesc.and htnNodup
    exact List.pairwise_map.mp hP
  have hsorted₁ : (genChildren ((root.filter (fun e => !(keepEntry e)) ++
      (⟨mname, some mtree⟩ : RootEntry) :: survivors) ++ [(⟨lname, none⟩ : RootEntry)])).Pairwise
      (fun a b => nameLe b.name a.name = true ∧ a.name ≠ b.name) := by
    have hle : DescBy (genChildren ((root.filter (fun e => !(keepEntry e)) ++
        (⟨mname, some mtree⟩ : RootEntry) :: survivors) ++ [(⟨lname, none⟩ : RootEntry)])) :=
      (sortDesc_sorted _).filter keepEntry
    have hpm : ((genChildren ((root.filter (fun e => !(keepEntry e)) ++
        (⟨mname, some mtree⟩ : RootEntry) :: survivors) ++ [(⟨lname, none⟩ : RootEntry)])).map
        (fun e => e.name)).Perm (mname :: survivors.map (fun e => e.name)) :=
      hperm.map (fun e => e.name)
    have hnd : ((genChildren ((root.filter (fun e => !(keepEntry e)) ++
        (⟨mname, some mtree⟩ : RootEntry) :: survivors) ++ [(⟨lname, none⟩ : RootEntry)])).map
        (fun e => e.name)).Nodup := hpm.nodup_iff.mpr htnNodup
    have hne : (genChildren ((root.filter (fun e => !(keepEntry e)) ++
        (⟨mname, some mtree⟩ : RootEntry) :: survivors) ++ [(⟨lname, none⟩ : RootEntry)])).Pairwise
        (fun a b => a.name ≠ b.name) := List.pairwise_map.mp hnd
    exact hle.and hne
  exact List.eq_of_perm_of_sorted hperm hsorted₁ hsorted₂

theorem allFail_survivorPairs (S : Nat) (f : List String) :
    ∀ gens : List (String × DirTree), allFail S f gens →
      allFail S f ((gens.map (fun g => (g.1, g.2, delete_empty_folders g.2))).filterMap
        (fun g => if ([] : List String) ∈ g.2.2 then none
           else some (g.1, g.2.1.prune g.2.2 [])))
  | [], _ => fun g hg => absurd hg (List.not_mem_nil g)
  | (n, t) :: rest, h => by
    have hh : matchFail S f (n, t) := h (n, t) (List.mem_cons_self _ _)
    have ih := allFail_survivorPairs S f rest
      (fun g hg => h g (List.mem_cons_of_mem _ hg))
    simp only [List.map_cons, List.filterMap_cons]
    by_cases hin : ([] : List String) ∈ delete_empty_folders t
    · rw [if_pos hin]
      exact ih
    · rw [if_neg hin]
      intro q hq
      rcases List.mem_cons.mp hq with rfl | hq
      · exact matchFail_degrade (prune_degrade t (delete_empty_folders t) []) hh
      · exact ih q hq

theorem firstFail_survivorPairs (S : Nat) (f : List String) :
    ∀ gens : List (String × DirTree),
      (∀ g ∈ gens, ([] : List String) ∉ delete_empty_folders g.2) →
      firstFail S f gens →
      firstFail S f ((gens.map (fun g => (g.1, g.2, delete_empty_folders g.2))).filterMap
        (fun g => if ([] : List String) ∈ g.2.2 then none
           else some (g.1, g.2.1.prune g.2.2 [])))
  | [], _, _ => True.intro
  | (n, t) :: rest, hn, hf => by
    have hin : ([] : List String) ∉ delete_empty_folders t :=
      hn (n, t) (List.mem_cons_self _ _)
    simp only [List.map_cons, List.filterMap_cons]
    rw [if_neg hin]
    exact matchFail_degrade (prune_degrade t (delete_empty_folders t) []) hf

theorem survivors_of_pairs : ∀ l : List (String × DirTree × List (List String)),
    ((l.filterMap (fun g => if ([] : List String) ∈ g.2.2 then none
        else some (g.1, g.2.1.prune g.2.2 []))).map (fun q => (⟨q.1, some q.2⟩ : RootEntry))) =
      l.filterMap (fun g => if ([] : List String) ∈ g.2.2 then none
        else some (⟨g.1, some (g.2.1.prune g.2.2 [])⟩ : RootEntry))
  | [] => rfl
  | g :: l => by
    simp only [List.filterMap_cons]
    by_cases hin : ([] : List String) ∈ g.2.2
    · rw [if_pos hin, if_pos hin]
      exact survivors_of_pairs l
    · rw [if_neg hin, if_neg hin]
      exact congrArg (List.cons (⟨g.1, some (g.2.1.prune g.2.2 [])⟩ : RootEntry))
        (survivors_of_pairs l)

/-- C5 (amended): the second of two consecutive real runs frees zero bytes
and writes no reconstruction-log rows, provided that (when continuity is
assumed) the first run's reclamation pass removes no generation root
outright.  Without that proviso the claim is false
(`C5_idempotence_counterexample`): a fully emptied generation disappears,
and duplicates in generations behind it that were shielded by a continuity
break become reachable on the second run. -/
theorem C5_idempotence_amended (now now' : String) (root : List RootEntry) (ac : Bool)
    (r₁ : RunResult) (mname : String) (mtree : DirTree) (olds : List (String × DirTree))
    (hnodup : (root.map (fun e => e.name)).Nodup)
    (hgens : checkDirs (genChildren root) = some ((mname, mtree) :: olds))
    (h₁ : deduplicate now root false ac = .ok r₁)
    (hnorm : ac = true → ∀ g ∈ r₁.postOlds,
      ([] : List String) ∉ delete_empty_folders g.2) :
    ∃ r₂, deduplicate now' r₁.entries false ac = .ok r₂ ∧
      r₂.bytes_freed = 0 ∧ rowsOf r₂.trace = [] := by
  rw [deduplicate_real_eq now root ac mname mtree olds hgens] at h₁
  injection h₁ with h₁
  subst h₁
  have hlogx : strEndsWith (logFileName now false) ".log.csv" = true := by
    rw [logFileName]
    exact strEndsWith_append _ _
  have hFnm : ∀ (g : String × DirTree × List (List String)) (e : RootEntry),
      (if ([] : List String) ∈ g.2.2 then none
       else some (⟨g.1, some (g.2.1.prune g.2.2 [])⟩ : RootEntry)) = some e → e.name = g.1 := by
    intro g e hg
    by_cases hin : ([] : List String) ∈ g.2.2
    · rw [if_pos hin] at hg
      exact absurd hg (by simp)
    · rw [if_neg hin] at hg
      rw [← Option.some_inj.mp hg]
  have hsn1 := filterMap_map_sublist
    (fun (g : String × DirTree × List (List String)) =>
      if ([] : List String) ∈ g.2.2 then none
      else some (⟨g.1, some (g.2.1.prune g.2.2 [])⟩ : RootEntry))
    (fun e => e.name) (fun g => g.1) hFnm
    ((scanAll ac false mname (candidates mtree) olds).2.2.map (fun g => (g.1, g.2, delete_empty_folders g.2)))
  have hreclnames : (((scanAll ac false mname (candidates mtree) olds).2.2.map (fun g => (g.1, g.2, delete_empty_folders g.2))).map
      (fun (g : String × DirTree × List (List String)) => g.1)) = olds.map (fun g => g.1) := by
    rw [List.map_map]
    exact scanAll_sameNames ac false mname (candidates mtree) olds
  rw [hreclnames] at hsn1
  have hgc := genChildren_post_run root mname mtree olds (logFileName now false) hnodup hgens
    hlogx
    (((scanAll ac false mname (candidates mtree) olds).2.2.map (fun g => (g.1, g.2, delete_empty_folders g.2))).filterMap
      (fun g => if ([] : List String) ∈ g.2.2 then none
         else some (⟨g.1, some (g.2.1.prune g.2.2 [])⟩ : RootEntry))) hsn1
  have hmap : (((scanAll ac false mname (candidates mtree) olds).2.2.map (fun g => (g.1, g.2, delete_empty_folders g.2))).filterMap
      (fun g => if ([] : List String) ∈ g.2.2 then none
         else some (g.1, g.2.1.prune g.2.2 []))).map (fun q => (⟨q.1, some q.2⟩ : RootEntry)) =
      ((scanAll ac false mname (candidates mtree) olds).2.2.map (fun g => (g.1, g.2, delete_empty_folders g.2))).filterMap
      (fun g => if ([] : List String) ∈ g.2.2 then none
         else some (⟨g.1, some (g.2.1.prune g.2.2 [])⟩ : RootEntry)) :=
    survivors_of_pairs ((scanAll ac false mname (candidates mtree) olds).2.2.map (fun g => (g.1, g.2, delete_empty_folders g.2)))
  have hgens₂ : checkDirs (genChildren ((root.filter (fun e => !(keepEntry e)) ++
      (⟨mname, some mtree⟩ : RootEntry) :: ((scanAll ac false mname (candidates mtree) olds).2.2.map (fun g => (g.1, g.2, delete_empty_folders g.2))).filterMap
      (fun g => if ([] : List String) ∈ g.2.2 then none
         else some (⟨g.1, some (g.2.1.prune g.2.2 [])⟩ : RootEntry))) ++
      [(⟨logFileName now false, none⟩ : RootEntry)])) =
      some ((mname, mtree) ::
        ((scanAll ac false mname (candidates mtree) olds).2.2.map (fun g => (g.1, g.2, delete_empty_folders g.2))).filterMap
      (fun g => if ([] : List String) ∈ g.2.2 then none
         else some (g.1, g.2.1.prune g.2.2 []))) := by
    rw [hgc, ← hmap]
    exact checkDirs_of_map ((mname, mtree) ::
      ((scanAll ac false mname (candidates mtree) olds).2.2.map (fun g => (g.1, g.2, delete_empty_folders g.2))).filterMap
      (fun g => if ([] : List String) ∈ g.2.2 then none
         else some (g.1, g.2.1.prune g.2.2 [])))
  have hzero : rowsOf (scanAll ac false mname (candidates mtree)
      (((scanAll ac false mname (candidates mtree) olds).2.2.map (fun g => (g.1, g.2, delete_empty_folders g.2))).filterMap
      (fun g => if ([] : List String) ∈ g.2.2 then none
         else some (g.1, g.2.1.prune g.2.2 [])))).1 = [] ∧
      (scanAll ac false mname (candidates mtree)
      (((scanAll ac false mname (candidates mtree) olds).2.2.map (fun g => (g.1, g.2, delete_empty_folders g.2))).filterMap
      (fun g => if ([] : List String) ∈ g.2.2 then none
         else some (g.1, g.2.1.prune g.2.2 [])))).2.1 = 0 ∧
      (scanAll ac false mname (candidates mtree)
      (((scanAll ac false mname (candidates mtree) olds).2.2.map (fun g => (g.1, g.2, delete_empty_folders g.2))).filterMap
      (fun g => if ([] : List String) ∈ g.2.2 then none
         else some (g.1, g.2.1.prune g.2.2 [])))).2.2 =
        (((scanAll ac false mname (candidates mtree) olds).2.2.map (fun g => (g.1, g.2, delete_empty_folders g.2))).filterMap
      (fun g => if ([] : List String) ∈ g.2.2 then none
         else some (g.1, g.2.1.prune g.2.2 []))) := by
    cases ac with
    | false =>
      apply scanAll_zero_false
      intro q hq
      obtain ⟨f, meta⟩ := q
      exact allFail_survivorPairs meta.st_size f _
        (scanAll_post_false mname (candidates mtree) olds f meta hq)
    | true =>
      apply scanAll_zero_true
      intro q hq
      obtain ⟨f, meta⟩ := q
      exact firstFail_survivorPairs meta.st_size f _ (hnorm rfl)
        (scanAll_post_true mname (candidates mtree) olds f meta hq)
  have hrun₂ := deduplicate_real_eq now'
    ((root.filter (fun e => !(keepEntry e)) ++
      (⟨mname, some mtree⟩ : RootEntry) :: ((scanAll ac false mname (candidates mtree) olds).2.2.map (fun g => (g.1, g.2, delete_empty_folders g.2))).filterMap
      (fun g => if ([] : List String) ∈ g.2.2 then none
         else some (⟨g.1, some (g.2.1.prune g.2.2 [])⟩ : RootEntry))) ++
      [(⟨logFileName now false, none⟩ : RootEntry)]) ac mname mtree
    (((scanAll ac false mname (candidates mtree) olds).2.2.map (fun g => (g.1, g.2, delete_empty_folders g.2))).filterMap
      (fun g => if ([] : List String) ∈ g.2.2 then none
         else some (g.1, g.2.1.prune g.2.2 []))) hgens₂
  refine ⟨_, hrun₂, ?_, ?_⟩
  · exact hzero.2.1
  · have hrm : ∀ e ∈ (((scanAll ac false mname (candidates mtree)
      (((scanAll ac false mname (candidates mtree) olds).2.2.map (fun g => (g.1, g.2, delete_empty_folders g.2))).filterMap
      (fun g => if ([] : List String) ∈ g.2.2 then none
         else some (g.1, g.2.1.prune g.2.2 [])))).2.2.map
        (fun g => (g.1, g.2, delete_empty_folders g.2))).map
        (fun g => g.2.2.map (fun d => Event.rmdir (g.1 :: d)))).flatten,
        ∃ p, e = Event.rmdir p := by
      intro e he
      rcases List.mem_flatten.mp he with ⟨l, hl, hel⟩
      rcases List.mem_map.mp hl with ⟨g, hg, rfl⟩
      rcases List.mem_map.mp hel with ⟨d, hd, rfl⟩
      exact ⟨g.1 :: d, rfl⟩
    show rowsOf ((scanAll ac false mname (candidates mtree)
      (((scanAll ac false mname (candidates mtree) olds).2.2.map (fun g => (g.1, g.2, delete_empty_folders g.2))).filterMap
      (fun g => if ([] : List String) ∈ g.2.2 then none
         else some (g.1, g.2.1.prune g.2.2 [])))).1 ++
      (((scanAll ac false mname (candidates mtree)
      (((scanAll ac false mname (candidates mtree) olds).2.2.map (fun g => (g.1, g.2, delete_empty_folders g.2))).filterMap
      (fun g => if ([] : List String) ∈ g.2.2 then none
         else some (g.1, g.2.1.prune g.2.2 [])))).2.2.map
        (fun g => (g.1, g.2, delete_empty_folders g.2))).map
        (fun g => g.2.2.map (fun d => Event.rmdir (g.1 :: d)))).flatten) = []
    rw [rowsOf_append, hzero.1, rowsOf_of_rmdirs _ hrm]
    rfl

/-- Witness for the amended C5: on a concrete root whose older generation
keeps a non-duplicate file (so reclamation removes no generation root), the
second consecutive real run frees zero bytes and writes no log rows. -/
theorem C5_idempotence_amended_witness :
    runBytes (deduplicate "T2" (runEntries (deduplicate "T1"
      [⟨"2024", some (DirTree.mk [("a.jpg", ⟨7, 10⟩)] [])⟩,
       ⟨"2023", some (DirTree.mk [("a.jpg", ⟨7, 5⟩), ("keep.txt", ⟨5, 5⟩)] [])⟩]
      false true)) false true) = 0 ∧
    runRows (deduplicate "T2" (runEntries (deduplicate "T1"
      [⟨"2024", some (DirTree.mk [("a.jpg", ⟨7, 10⟩)] [])⟩,
       ⟨"2023", some (DirTree.mk [("a.jpg", ⟨7, 5⟩), ("keep.txt", ⟨5, 5⟩)] [])⟩]
      false true)) false true) = [] := by
  cases h : deduplicate "T1"
      [⟨"2024", some (DirTree.mk [("a.jpg", ⟨7, 10⟩)] [])⟩,
       ⟨"2023", some (DirTree.mk [("a.jpg", ⟨7, 5⟩), ("keep.txt", ⟨5, 5⟩)] [])⟩]
      false true with
  | error e =>
    have hok : (deduplicate "T1"
        [⟨"2024", some (DirTree.mk [("a.jpg", ⟨7, 10⟩)] [])⟩,
       ⟨"2023", some (DirTree.mk [("a.jpg", ⟨7, 5⟩), ("keep.txt", ⟨5, 5⟩)] [])⟩]
        false true).isOk = true := by decide
    rw [h] at hok
    simp [Except.isOk, Except.toBool] at hok
  | ok r =>
    have hnorm : (true : Bool) = true → ∀ g ∈ r.postOlds,
        ([] : List String) ∉ delete_empty_folders g.2 := by
      intro _ g hg
      have hpost_eq : runPostOlds (deduplicate "T1"
          [⟨"2024", some (DirTree.mk [("a.jpg", ⟨7, 10⟩)] [])⟩,
       ⟨"2023", some (DirTree.mk [("a.jpg", ⟨7, 5⟩), ("keep.txt", ⟨5, 5⟩)] [])⟩]
          false true) = [("2023", DirTree.mk [("keep.txt", ⟨5, 5⟩)] [])] := rfl
      rw [h] at hpost_eq
      have hpe : r.postOlds = [("2023", DirTree.mk [("keep.txt", ⟨5, 5⟩)] [])] := hpost_eq
      rw [hpe] at hg
      rcases List.mem_singleton.mp hg with rfl
      decide
    obtain ⟨r₂, he₂, hb₂, hr₂⟩ := C5_idempotence_amended "T1" "T2"
      [⟨"2024", some (DirTree.mk [("a.jpg", ⟨7, 10⟩)] [])⟩,
       ⟨"2023", some (DirTree.mk [("a.jpg", ⟨7, 5⟩), ("keep.txt", ⟨5, 5⟩)] [])⟩]
      true r "2024" (DirTree.mk [("a.jpg", ⟨7, 10⟩)] [])
      [("2023", DirTree.mk [("a.jpg", ⟨7, 5⟩), ("keep.txt", ⟨5, 5⟩)] [])]
      (by decide) rfl h hnorm
    rw [show runEntries (Except.ok r) = r.entries from rfl]
    rw [he₂]
    exact ⟨hb₂, hr₂⟩
